import Mathlib

/-!
# The tModLoader version updater (`vu.go`)

A shallow embedding of `src/vu.go`.  The program is sequential Go code working on a
file tree and on HTTP responses; it is modelled here by explicit state passing over a
`State` (the `VersionUpdate` struct, the file tree, the reachable HTTP resources and a
trace of observed events).  A call of `fullstop(n)` ends a run with `Halt.exit n`; a Go
run-time panic (an index out of range) ends it with `Halt.goPanic`.

Modelling conventions, fixed once here:

* Go strings are Lean strings, i.e. sequences of Unicode scalar values (valid UTF-8):
  files, URLs and versions are text.  A Go string with bytes that are not valid UTF-8 has
  no counterpart here.  This matters at one place: on text, `json.Encoder.Encode`
  followed by `Decode` gives the string back unchanged, while on other strings `Encode`
  replaces each invalid byte by U+FFFD; a log whose first line is not valid UTF-8 is
  outside the model.
* A file's content is a typed document (`Data`): plain bytes, a JSON object of string
  members (what `json.Decoder` accepts for a `map[string]string`), a zip archive or a
  gzip-compressed tar archive.  The codecs themselves are not modelled: encoding a
  document and decoding it again is the identity.
* The file tree has directories and regular files only (no symbolic links, no
  permission or device errors); paths are resolved lexically.  An operation fails for
  the reasons a file tree gives (a missing path, a path of the wrong kind) and a download
  fails for an unreachable URL; a read or a write on a file that is already open does not
  fail, so the error branches after `io.Copy`, `Encode` and `zip.File.Open` are never
  taken.
* The trace is ghost state: it records the entry into each upgrade step and each
  `os.Open`, so that "is invoked" and "is read" can be stated.
* Console output and the content of the CPU profile are not modelled.
-/

namespace VU

/-! ## Package `strings` and `fmt` -/

/-- Scanner behind `strings.Split` for a non-empty separator: `skip` counts the remaining
characters of a separator occurrence that is being consumed, `cur` is the current segment,
reversed. -/
def splitGo (sep : List Char) : Nat → List Char → List Char → List (List Char)
  | _, cur, [] => [cur.reverse]
  | skip + 1, cur, _ :: cs => splitGo sep skip cur cs
  | 0, cur, c :: cs =>
    if sep.isPrefixOf (c :: cs) then cur.reverse :: splitGo sep (sep.length - 1) [] cs
    else splitGo sep 0 (c :: cur) cs

/-- Go `strings.Split(s, sep)`: the segments of `s` between the non-overlapping occurrences
of `sep`, from left to right; with an empty separator `s` is exploded into characters. -/
def Split (s sep : String) : List String :=
  if sep.data = [] then s.data.map (fun c => String.mk [c])
  else (splitGo sep.data 0 [] s.data).map String.mk

/-- Go `strings.TrimLeft(s, cutset)`: `s` without all its leading characters that occur
in `cutset`. -/
def TrimLeft (s cutset : String) : String :=
  String.mk (s.data.dropWhile (fun c => cutset.data.contains c))

/-- Go `strings.HasPrefix`. -/
def HasPrefix (s pre : String) : Bool :=
  pre.data.isPrefixOf s.data

/-- Go `strings.HasSuffix`. -/
def HasSuffix (s suf : String) : Bool :=
  suf.data.reverse.isPrefixOf s.data.reverse

/-- Go `strings.Join`. -/
def joinWith (sep : String) : List String → String
  | [] => ""
  | [a] => a
  | a :: b :: rest => a ++ sep ++ joinWith sep (b :: rest)

/-- Worker of `Sprintf1`: `arg` is `some a` while the operand is still unused. -/
def sprintfGo : List Char → Option String → List Char
  | [], some a => "%!(EXTRA string=".data ++ a.data ++ [')']
  | [], none => []
  | '%' :: 's' :: rest, some a => a.data ++ sprintfGo rest none
  | '%' :: 's' :: rest, none => "%!s(MISSING)".data ++ sprintfGo rest none
  | '%' :: '%' :: rest, arg => '%' :: sprintfGo rest arg
  | c :: rest, arg => c :: sprintfGo rest arg

/-- Go `fmt.Sprintf(format, arg)` with one string operand, for formats whose only verbs
are `%s` and `%%` (the templates of `CopyConfigFiles`). -/
def Sprintf1 (format arg : String) : String :=
  String.mk (sprintfGo format.data (some arg))

/-! ## Package `path/filepath` (Unix) -/

/-- Component pass of `filepath.Clean`: drops empty and `.` components and resolves `..`
against the component before it; `st` is the stack of kept components, reversed. -/
def cleanStack (rooted : Bool) : List String → List String → List String
  | [], st => st.reverse
  | c :: cs, st =>
    if c = "" ∨ c = "." then cleanStack rooted cs st
    else if c = ".." then
      match st with
      | top :: st1 =>
        if top = ".." then cleanStack rooted cs (c :: st) else cleanStack rooted cs st1
      | [] => if rooted then cleanStack rooted cs [] else cleanStack rooted cs [c]
    else cleanStack rooted cs (c :: st)

/-- Go `filepath.Clean`. -/
def Clean (path : String) : String :=
  let rooted := HasPrefix path "/"
  let body := joinWith "/" (cleanStack rooted (Split path "/") [])
  if rooted then "/" ++ body else if body = "" then "." else body

/-- Go `filepath.Join`: the elements from the first non-empty one on, joined with `/`
and cleaned; the empty string when every element is empty. -/
def Join (elem : List String) : String :=
  match elem.dropWhile (fun e => e = "") with
  | [] => ""
  | es => Clean (joinWith "/" es)

/-- Go `filepath.Dir`: everything up to the last `/`, cleaned. -/
def Dir (path : String) : String :=
  Clean (String.mk (path.data.reverse.dropWhile (fun c => c != '/')).reverse)

/-- Go `filepath.Base`: the last element of the path, trailing slashes removed. -/
def Base (path : String) : String :=
  if path = "" then "."
  else
    let stripped := path.data.reverse.dropWhile (fun c => c == '/')
    let seg := (stripped.takeWhile (fun c => c != '/')).reverse
    if seg = [] then "/" else String.mk seg

/-! ## The machine state -/

mutual
/-- Content of a regular file, as a typed document. -/
inductive Data where
  | raw (bytes : String)
  | json (members : List (String × String))
  | zip (entries : List (String × Node))
  | tarGz (entries : List (String × Node))
/-- A node of the file tree (and the payload of an archive entry). -/
inductive Node where
  | dir (mode : Nat)
  | file (mode : Nat) (data : Data)
end

/-- The file tree: nodes by cleaned absolute path (first binding wins). -/
abbrev FS := List (String × Node)

/-- What `http.Get(url)` yields after following redirects. -/
structure HttpResp where
  finalURL : String
  body : Data

/-- The seven upgrade steps of `VersionUpdate.main`. -/
inductive Step where
  | BackupExecs
  | BackupDataFiles
  | MoveCurrentDir
  | MakeNewDir
  | GetLatestZip
  | ServerSetup
  | DeployStartFiles
deriving DecidableEq, Repr

/-- Observed events: entry into an upgrade step, and `os.Open` of a path. -/
inductive Event where
  | step (s : Step)
  | osOpen (path : String)
deriving DecidableEq, Repr

/-- The struct `VersionUpdate`. -/
structure VersionUpdate where
  Version : String
  DataDir : String
  ImageURL : String
  RootDir : String
  LogFile : String
  VersionLogFile : String
  InstalledVersion : String
  LatestVersion : String
  CopyConfigFiles : List String
  MoveConfigFiles : List String
  BackupDir : String
  BaseDir : String
deriving DecidableEq, Repr

/-- Everything a run reads and writes: the `VersionUpdate` value `vu`, the working
directory, the file tree, the HTTP resources (a URL not listed is unreachable), and the
trace of events so far. -/
structure State where
  vu : VersionUpdate
  cwd : String
  fs : FS
  net : List (String × HttpResp)
  trace : List Event

/-- How a run stops without returning: `fullstop(code)` / `os.Exit(code)`, or a run-time
panic (which ends a Go process with status 2). -/
inductive Halt where
  | exit (code : Nat)
  | goPanic
deriving DecidableEq, Repr

/-- Outcome of a call: it returns `val` in state `s`, or the process stops in state `s`. -/
inductive Res (α : Type) where
  | ok (val : α) (s : State)
  | halt (h : Halt) (s : State)

/-- The function `fullstop`: stops the profiler and exits with status `dropout`. -/
def fullstop {α : Type} (dropout : Nat) (s : State) : Res α :=
  .halt (.exit dropout) s

/-- Appends an event to the trace. -/
def State.record (s : State) (e : Event) : State :=
  { s with trace := s.trace ++ [e] }

/-- The upgrade steps entered so far, in order. -/
def State.steps (s : State) : List Step :=
  s.trace.filterMap (fun e => match e with | .step st => some st | .osOpen _ => none)

/-- The constructor `NewVersionUpdate`. -/
def NewVersionUpdate : VersionUpdate :=
  { InstalledVersion := "0.0"
    LatestVersion := "0.0"
    Version := "0.2"
    DataDir := ".local/share/Terraria"
    ImageURL := "https://github.com/tModLoader/tModLoader/releases/latest"
    RootDir := "/root"
    LogFile := "/root/tModLoader/tModLoader-Logs/server.log"
    VersionLogFile := "/root/tModLoader/version_update.json"
    CopyConfigFiles :=
      [ "/root/tModLoader-v%s/boot_start.sh",
        "/root/tModLoader-v%s/start.sh",
        "/root/tModLoader-v%s/serverconfig.txt" ]
    MoveConfigFiles := [ "/root/tModLoader/serverconfig.txt" ]
    BackupDir := "/root/backup"
    BaseDir := "/root/tModLoader" }

/-- Sequencing: continue with `f` when `r` returned, stay stopped otherwise. -/
def Res.andThen {α β : Type} (r : Res α) (f : α → State → Res β) : Res β :=
  match r with
  | .ok val s => f val s
  | .halt h s => .halt h s

/-! ## Operating-system and library calls -/

/-- Lexical resolution of a path name against the working directory (the empty name
names nothing). -/
def resolve (s : State) (name : String) : Option String :=
  if name = "" then none
  else if HasPrefix name "/" then some (Clean name)
  else some (Clean (s.cwd ++ "/" ++ name))

/-- The node at a resolved path; the root directory always exists. -/
def fsStat (fs : FS) (key : String) : Option Node :=
  match List.lookup key fs with
  | some n => some n
  | none => if key = "/" then some (.dir 493) else none

/-- Binds `key` to `n`, replacing any earlier binding. -/
def fsPut (fs : FS) (key : String) (n : Node) : FS :=
  (key, n) :: fs.filter (fun e => e.1 != key)

/-- The bindings at `root` and below it. -/
def fsWalk (fs : FS) (root : String) : FS :=
  fs.filter (fun e => e.1 == root || HasPrefix e.1 (if root = "/" then "/" else root ++ "/"))

/-- Go `os.Open`: the node at `name`, if any; the attempt is recorded in the trace. -/
def osOpen (s : State) (name : String) : Option Node × State :=
  ((resolve s name).bind (fsStat s.fs), s.record (.osOpen name))

/-- Go `os.Create` (`O_RDWR|O_CREATE|O_TRUNC`, mode 0666 under umask 022): truncates an
existing regular file or creates an empty one in an existing directory.  Returns the
resolved path, standing for the open file. -/
def osCreate (s : State) (name : String) : Except String (String × State) :=
  match resolve s name with
  | none => .error "ENOENT"
  | some key =>
    match fsStat s.fs key with
    | some (.dir _) => .error "EISDIR"
    | some (.file mode _) => .ok (key, { s with fs := fsPut s.fs key (.file mode (.raw "")) })
    | none =>
      match fsStat s.fs (Dir key) with
      | some (.dir _) => .ok (key, { s with fs := fsPut s.fs key (.file 420 (.raw "")) })
      | some (.file _ _) => .error "ENOTDIR"
      | none => .error "ENOENT"

/-- Writing a whole document to the open file `key` (`io.Copy` into it, or
`json.Encoder.Encode`). -/
def writeData (s : State) (key : String) (data : Data) : State :=
  match fsStat s.fs key with
  | some (.file mode _) => { s with fs := fsPut s.fs key (.file mode data) }
  | _ => s

/-- Go `os.Rename`: moves a regular file (replacing a regular file) or a directory with
everything below it (replacing at most an empty directory). -/
def osRename (s : State) (oldpath newpath : String) : Except String State :=
  match resolve s oldpath, resolve s newpath with
  | some ko, some kn =>
    match fsStat s.fs ko with
    | none => .error "ENOENT"
    | some src =>
      if ko = "/" then .error "EBUSY"
      else if ko = kn then .ok s
      else
        match fsStat s.fs (Dir kn) with
        | none => .error "ENOENT"
        | some (.file _ _) => .error "ENOTDIR"
        | some (.dir _) =>
          let moved : FS := (s.fs.filter (fun e => e.1 != kn)).map (fun e =>
            if e.1 = ko then (kn, e.2)
            else if HasPrefix e.1 (ko ++ "/") then
              (kn ++ String.mk (e.1.data.drop ko.data.length), e.2)
            else e)
          match src, fsStat s.fs kn with
          | .file _ _, some (.dir _) => .error "EISDIR"
          | .file _ _, _ => .ok { s with fs := moved }
          | .dir _, some (.file _ _) => .error "ENOTDIR"
          | .dir _, found =>
            if HasPrefix kn (ko ++ "/") then .error "EINVAL"
            else if found.isSome && (fsWalk s.fs kn).length > 1 then .error "ENOTEMPTY"
            else .ok { s with fs := moved }
  | _, _ => .error "ENOENT"

/-- Go `os.Mkdir` (mode `os.ModePerm` under umask 022): the directory must not exist and
its parent must be a directory. -/
def osMkdir (s : State) (name : String) : Except String State :=
  match resolve s name with
  | none => .error "ENOENT"
  | some key =>
    match fsStat s.fs key with
    | some _ => .error "EEXIST"
    | none =>
      match fsStat s.fs (Dir key) with
      | some (.dir _) => .ok { s with fs := fsPut s.fs key (.dir 493) }
      | some (.file _ _) => .error "ENOTDIR"
      | none => .error "ENOENT"

/-- Worker of `osMkdirAll`: walks the components below `pre`, creating what is missing. -/
def mkdirAllGo : FS → String → List String → Except String FS
  | fs, _, [] => .ok fs
  | fs, pre, c :: cs =>
    let p := pre ++ "/" ++ c
    match fsStat fs p with
    | some (.dir _) => mkdirAllGo fs p cs
    | some (.file _ _) => .error "ENOTDIR"
    | none => mkdirAllGo (fsPut fs p (.dir 493)) p cs

/-- Go `os.MkdirAll`: creates the directory and every missing parent; succeeds when it
already exists. -/
def osMkdirAll (s : State) (path : String) : Except String State :=
  match resolve s path with
  | none => .error "ENOENT"
  | some key =>
    match mkdirAllGo s.fs "" ((Split key "/").filter (fun c => c != "")) with
    | .error e => .error e
    | .ok fs => .ok { s with fs := fs }

/-- Go `os.Chmod`. -/
def osChmod (s : State) (name : String) (mode : Nat) : Except String State :=
  match resolve s name with
  | none => .error "ENOENT"
  | some key =>
    match fsStat s.fs key with
    | none => .error "ENOENT"
    | some (.dir _) => .ok { s with fs := fsPut s.fs key (.dir mode) }
    | some (.file _ data) => .ok { s with fs := fsPut s.fs key (.file mode data) }

/-- Go `filepath.Glob`, for a pattern whose directory part is literal and whose last
element is literal or of the form `*lit` (as in `BaseDir/*.sh`): the matching entries
directly under the directory.  Such a pattern is never malformed, so no error is
returned; the order of the matches is that of the file tree. -/
def Glob (s : State) (pattern : String) : List String :=
  let dir := Dir pattern
  match (Base pattern).data with
  | '*' :: lit =>
    match resolve s dir with
    | none => []
    | some dkey =>
      ((s.fs.filter (fun e =>
          e.1 != dkey && Dir e.1 == dkey && HasSuffix (Base e.1) (String.mk lit))).map
        (fun e => Join [dir, Base e.1]))
  | _ => if ((resolve s pattern).bind (fsStat s.fs)).isSome then [pattern] else []

/-- Go `http.Get`: the response after redirects, or nothing on a transport error. -/
def httpGet (s : State) (url : String) : Option HttpResp :=
  List.lookup url s.net

/-- Go `zip.OpenReader`: the entries of the archive at `name`. -/
def zipOpenReader (s : State) (name : String) : Option (List (String × Node)) × State :=
  match osOpen s name with
  | (some (.file _ (.zip entries)), s) => (some entries, s)
  | (_, s) => (none, s)

/-- Go `zip.File.FileInfo().IsDir()`: the entry is marked as a directory by its
attributes or by a name ending in a slash. -/
def entryIsDir (name : String) (node : Node) : Bool :=
  match node with
  | .dir _ => true
  | .file _ _ => HasSuffix name "/"

/-- The content of an archive entry. -/
def entryData (node : Node) : Data :=
  match node with
  | .dir _ => .raw ""
  | .file _ data => data

/-- The first token of a `bufio.Scanner` with the default line splitter: the bytes before
the first newline without one trailing carriage return (the empty string for an empty
file).  Fails when no newline is found within the 64 KiB buffer, and when reading fails
(a directory).  The bytes of a document other than plain bytes are not represented, so
scanning one is treated as a read failure. -/
def scanFirstLine (node : Node) : Except String String :=
  match node with
  | .file _ (.raw bytes) =>
    let line := bytes.data.takeWhile (fun c => c != '\n')
    if 65536 ≤ (String.mk line).utf8ByteSize then .error "bufio.Scanner: token too long"
    else
      match line.reverse with
      | '\r' :: rest => .ok (String.mk rest.reverse)
      | _ => .ok (String.mk line)
  | _ => .error "read error"

/-- Go `FlagSet.Parse` for a flag set with `flag.ExitOnError` and no flag defined (as are
`flag.CommandLine` and the three sub-command sets here): the positional arguments that
remain, or the exit it performs on an argument that looks like a flag (status 0 for
`-h` and `-help`, status 2 otherwise). -/
def flagParse : List String → Except Halt (List String)
  | [] => .ok []
  | a :: rest =>
    match a.data with
    | '-' :: c :: more =>
      if c = '-' ∧ more = [] then .ok rest
      else
        let name := if c = '-' then more else c :: more
        match name with
        | [] => .error (.exit 2)
        | n0 :: _ =>
          if n0 = '-' ∨ n0 = '=' then .error (.exit 2)
          else
            let key := String.mk (name.takeWhile (fun x => x != '='))
            if key = "help" ∨ key = "h" then .error (.exit 0) else .error (.exit 2)
    | _ => .ok (a :: rest)

/-! ## The program -/

/-- Method `GetLatestVersion`: the last `/`-separated part of the final URL, trimmed of
leading `v` characters. -/
def GetLatestVersion (s : State) : Res String :=
  match httpGet s s.vu.ImageURL with
  | none => fullstop 1 s
  | some resp =>
    let urlParts := Split resp.finalURL "/"
    match urlParts[urlParts.length - 1]? with
    | none => .halt .goPanic s
    | some last =>
      let urlPart := TrimLeft last "v"
      .ok urlPart s

/-- Method `readFirstLogLine`. -/
def readFirstLogLine (s : State) : Res String :=
  match osOpen s s.vu.LogFile with
  | (none, s) => fullstop 1 s
  | (some file, s) =>
    match scanFirstLine file with
    | .error _ => fullstop 1 s
    | .ok firstLine =>
      match (Split firstLine "+")[1]? with
      | none => .halt .goPanic s
      | some afterPlus =>
        let versionParts := Split afterPlus "|"
        match versionParts[0]? with
        | none => .halt .goPanic s
        | some v => .ok v s

/-- Method `readVersionLog`: the member `version` of the decoded record (the empty
string when the member is missing) and whether an error is returned. -/
def readVersionLog (s : State) : (String × Bool) × State :=
  match osOpen s s.vu.VersionLogFile with
  | (none, s) => (("", true), s)
  | (some (.file _ (.json versionMap)), s) =>
    (((List.lookup "version" versionMap.reverse).getD "", false), s)
  | (some _, s) => (("", true), s)

/-- Method `writeVersionLog`: the record file is created (or truncated) and receives the
document with the single member `version`.  The version is text, which the encoder
stores unchanged. -/
def writeVersionLog (version : String) (s : State) : Res Unit :=
  let versionMap := [("version", version)]
  match osCreate s s.vu.VersionLogFile with
  | .error _ => fullstop 1 s
  | .ok (file, s) => .ok () (writeData s file (.json versionMap))

/-- Method `GetInstalledVersion`. -/
def GetInstalledVersion (s : State) : Res String :=
  match readVersionLog s with
  | ((version, _), s) =>
    if version = "" then
      (readFirstLogLine s).andThen fun version s =>
        (writeVersionLog version s).andThen fun _ s => .ok version s
    else .ok version s

/-- Function `tarGz`: creates the output file, walks the source tree and stores every
node under its path relative to the source; a regular file is opened and copied in.  The
tree is the one found right after the output file was created. -/
def tarGz (outputPath sourcePath _backupDir : String) (s : State) : Option String × State :=
  match osCreate s outputPath with
  | .error e => (some e, s)
  | .ok (outputFile, s) =>
    match (resolve s sourcePath).bind (fun root => (fsStat s.fs root).map (fun _ => root)) with
    | none => (some "lstat: ENOENT", writeData s outputFile (.tarGz []))
    | some root =>
      let found := fsWalk s.fs root
      let s := found.foldl (fun s e =>
        match e.2 with
        | .file _ _ => s.record (.osOpen e.1)
        | .dir _ => s) s
      let rel := fun (key : String) =>
        if key = root then "."
        else String.mk (key.data.drop (if root = "/" then 1 else root.data.length + 1))
      (none, writeData s outputFile (.tarGz (found.map (fun e => (rel e.1, e.2)))))

/-- Method `BackupExecs`. -/
def BackupExecs (s : State) : Res Unit :=
  let s := s.record (.step .BackupExecs)
  let execBackupPath := s.vu.BackupDir ++ "/tMod-execs-" ++ s.vu.InstalledVersion ++ ".tar.gz"
  let execBackupDir := s.vu.RootDir ++ "/tModLoader"
  match tarGz execBackupPath execBackupDir s.vu.BackupDir s with
  | (some _, s) => fullstop 1 s
  | (none, s) => .ok () s

/-- Method `BackupDataFiles`. -/
def BackupDataFiles (s : State) : Res Unit :=
  let s := s.record (.step .BackupDataFiles)
  let dataBackupPath :=
    s.vu.BackupDir ++ "/tMod-datafiles-" ++ s.vu.InstalledVersion ++ ".tar.gz"
  let dataBackupDir := s.vu.RootDir ++ "/" ++ s.vu.DataDir
  match tarGz dataBackupPath dataBackupDir s.vu.BackupDir s with
  | (some _, s) => fullstop 1 s
  | (none, s) => .ok () s

/-- Method `MoveCurrentDir`. -/
def MoveCurrentDir (s : State) : Res Unit :=
  let s := s.record (.step .MoveCurrentDir)
  let currentDir := s.vu.RootDir ++ "/tModLoader"
  let newDir := s.vu.RootDir ++ "/tModLoader-v" ++ s.vu.InstalledVersion
  match osRename s currentDir newDir with
  | .error _ => fullstop 1 s
  | .ok s => .ok () s

/-- Method `MakeNewDir`. -/
def MakeNewDir (s : State) : Res Unit :=
  let s := s.record (.step .MakeNewDir)
  let newDir := s.vu.RootDir ++ "/tModLoader"
  match osMkdir s newDir with
  | .error _ => fullstop 1 s
  | .ok s => .ok () s

/-- Function `downloadFile`. -/
def downloadFile (filePath url : String) (s : State) : Option String × State :=
  match osCreate s filePath with
  | .error e => (some e, s)
  | .ok (output, s) =>
    match httpGet s url with
    | none => (some "Get: transport error", s)
    | some response => (none, writeData s output response.body)

/-- Method `GetLatestZip`. -/
def GetLatestZip (s : State) : Res Unit :=
  let s := s.record (.step .GetLatestZip)
  let zipURL := "https://github.com/tModLoader/tModLoader/releases/download/v" ++
    s.vu.LatestVersion ++ "/tModLoader.zip"
  let zipPath := s.vu.RootDir ++ "/tModLoader/tModLoader-v" ++ s.vu.LatestVersion ++ ".zip"
  match downloadFile zipPath zipURL s with
  | (some _, s) => fullstop 1 s
  | (none, s) => .ok () s

/-- The loop of `unzip` over the entries of the archive. -/
def unzipLoop (extractDir : String) : List (String × Node) → State → Option String × State
  | [], s => (none, s)
  | (name, node) :: rest, s =>
    let destPath := Join [extractDir, name]
    if entryIsDir name node then
      match osMkdirAll s destPath with
      | .error e => (some e, s)
      | .ok s => unzipLoop extractDir rest s
    else
      match osCreate s destPath with
      | .error e => (some e, s)
      | .ok (destFile, s) => unzipLoop extractDir rest (writeData s destFile (entryData node))

/-- Function `unzip`. -/
def unzip (zipPath extractDir : String) (s : State) : Option String × State :=
  match zipOpenReader s zipPath with
  | (none, s) => (some "zip: not a valid zip file", s)
  | (some entries, s) => unzipLoop extractDir entries s

/-- Method `ServerSetup`. -/
def ServerSetup (s : State) : Res Unit :=
  let s := s.record (.step .ServerSetup)
  let zipPath := s.vu.RootDir ++ "/tModLoader/tModLoader-v" ++ s.vu.LatestVersion ++ ".zip"
  let extractDir := s.vu.RootDir ++ "/tModLoader"
  match unzip zipPath extractDir s with
  | (some _, s) => fullstop 1 s
  | (none, s) => .ok () s

/-- Function `copyFile`. -/
def copyFile (src dest : String) (s : State) : Option String × State :=
  match osOpen s src with
  | (none, s) => (some "ENOENT", s)
  | (some sourceFile, s) =>
    match osCreate s dest with
    | .error e => (some e, s)
    | .ok (destFile, s) =>
      match sourceFile with
      | .dir _ => (some "read: EISDIR", s)
      | .file _ data => (none, writeData s destFile data)

/-- First loop of `DeployStartFiles`: every file of `MoveConfigFiles` is renamed to itself
with the suffix `.orig`. -/
def moveConfigLoop : List String → State → Option String × State
  | [], s => (none, s)
  | file :: rest, s =>
    let originalPath := file ++ ".orig"
    match osRename s file originalPath with
    | .error e => (some e, s)
    | .ok s => moveConfigLoop rest s

/-- Second loop of `DeployStartFiles`: every template of `CopyConfigFiles`, instantiated
with the installed version, is copied into the new directory under its base name. -/
def copyConfigLoop : List String → State → Option String × State
  | [], s => (none, s)
  | file :: rest, s =>
    let originalPath := Sprintf1 file s.vu.InstalledVersion
    let destPath := Join [s.vu.RootDir ++ "/tModLoader", Base file]
    match copyFile originalPath destPath s with
    | (some e, s) => (some e, s)
    | (none, s) => copyConfigLoop rest s

/-- Third loop of `DeployStartFiles`: every globbed script gets mode 0755. -/
def chmodLoop : List String → State → Option String × State
  | [], s => (none, s)
  | shFile :: rest, s =>
    match osChmod s shFile 493 with
    | .error e => (some e, s)
    | .ok s => chmodLoop rest s

/-- Method `DeployStartFiles`. -/
def DeployStartFiles (s : State) : Res Unit :=
  let s := s.record (.step .DeployStartFiles)
  match moveConfigLoop s.vu.MoveConfigFiles s with
  | (some _, s) => fullstop 1 s
  | (none, s) =>
    match copyConfigLoop s.vu.CopyConfigFiles s with
    | (some _, s) => fullstop 1 s
    | (none, s) =>
      let shFiles := Glob s (Join [s.vu.BaseDir, "*.sh"])
      match chmodLoop shFiles s with
      | (some _, s) => fullstop 1 s
      | (none, s) =>
        let s := { s with vu := { s.vu with InstalledVersion := s.vu.LatestVersion } }
        writeVersionLog s.vu.InstalledVersion s

/-- Method `main` of `VersionUpdate`: the upgrade logic. -/
def VersionUpdate.main (s : State) : Res Unit :=
  let check := s.vu.LatestVersion != s.vu.InstalledVersion
  if check then
    (BackupExecs s).andThen fun _ s =>
    (BackupDataFiles s).andThen fun _ s =>
    (MoveCurrentDir s).andThen fun _ s =>
    (MakeNewDir s).andThen fun _ s =>
    (GetLatestZip s).andThen fun _ s =>
    (ServerSetup s).andThen fun _ s =>
    (DeployStartFiles s).andThen fun _ s =>
    .ok () s
  else .ok () s

/-- Branch `case "check"` of the function `main`. -/
def caseCheck (args : List String) (s : State) : Res Unit :=
  match flagParse (args.drop 2) with
  | .error h => .halt h s
  | .ok _ =>
    (GetInstalledVersion s).andThen fun installedVersion s =>
    (GetLatestVersion s).andThen fun latestVersion s =>
    let updateAvailable := installedVersion != latestVersion
    if updateAvailable then fullstop 42 s else fullstop 0 s

/-- Branch `case "pcheck"` of the function `main`. -/
def casePcheck (args : List String) (s : State) : Res Unit :=
  match flagParse (args.drop 2) with
  | .error h => .halt h s
  | .ok _ =>
    (GetInstalledVersion s).andThen fun installedVersion s =>
    (GetLatestVersion s).andThen fun latestVersion s =>
    let updateAvailable := installedVersion != latestVersion
    if updateAvailable then fullstop 42 s else fullstop 0 s

/-- Branch `case "upgrade"` of the function `main`. -/
def caseUpgrade (args : List String) (s : State) : Res Unit :=
  match flagParse (args.drop 2) with
  | .error h => .halt h s
  | .ok _ =>
    (GetLatestVersion s).andThen fun latest s =>
    let s := { s with vu := { s.vu with LatestVersion := latest } }
    (GetInstalledVersion s).andThen fun installed s =>
    let s := { s with vu := { s.vu with InstalledVersion := installed } }
    (VersionUpdate.main s).andThen fun _ s =>
    fullstop 88 s

/-- The function `main`, run on the argument vector `args` (`os.Args`) from state `s`.
The profile file `vu.prof` is created in the working directory. -/
def main (args : List String) (s : State) : Res Unit :=
  let s := { s with vu := NewVersionUpdate }
  match args with
  | [] => .halt .goPanic s
  | _ :: rest =>
    match flagParse rest with
    | .error h => .halt h s
    | .ok positional =>
      match osCreate s "vu.prof" with
      | .error _ => fullstop 1 s
      | .ok (_, s) =>
        if positional.length < 1 then fullstop 2 s
        else
          match args[1]? with
          | none => .halt .goPanic s
          | some cmd =>
            if cmd = "check" then caseCheck args s
            else if cmd = "pcheck" then casePcheck args s
            else if cmd = "upgrade" then caseUpgrade args s
            else fullstop 2 s

/-! ## Specification-side definitions -/

/-- The state in which a call ended. -/
def Res.st {α : Type} : Res α → State
  | .ok _ s => s
  | .halt _ s => s

/-- How a call stopped the process, if it did. -/
def Res.halted {α : Type} : Res α → Option Halt
  | .ok _ _ => none
  | .halt h _ => some h

/-- The value a call returned, if it returned. -/
def Res.value {α : Type} : Res α → Option α
  | .ok v _ => some v
  | .halt _ _ => none

/-- The last `/`-separated segment of a URL, in the words of the specification. -/
def lastSegment (url : String) : String :=
  String.mk (url.data.reverse.takeWhile (fun c => c != '/')).reverse

/-- Stripping one leading version-prefix character, in the words of the specification:
the segment minus its first character when it begins with `v`, the segment otherwise. -/
def stripOneV (seg : String) : String :=
  match seg.data with
  | 'v' :: rest => String.mk rest
  | _ => seg

/-- The substring strictly between the first `+` of a line and the next `|` after it, in
the words of the specification. -/
def betweenPlusAndBar (line : String) : String :=
  String.mk (((line.data.dropWhile (fun c => c != '+')).drop 1).takeWhile (fun c => c != '|'))

/-- The order of the upgrade steps, in the words of the specification. -/
def stepOrder : List Step :=
  [.BackupExecs, .BackupDataFiles, .MoveCurrentDir, .MakeNewDir, .GetLatestZip, .ServerSetup,
    .DeployStartFiles]

/-- The method of `VersionUpdate` that carries out a step. -/
def runStep : Step → State → Res Unit
  | .BackupExecs => BackupExecs
  | .BackupDataFiles => BackupDataFiles
  | .MoveCurrentDir => MoveCurrentDir
  | .MakeNewDir => MakeNewDir
  | .GetLatestZip => GetLatestZip
  | .ServerSetup => ServerSetup
  | .DeployStartFiles => DeployStartFiles

/-- Running a list of steps one after the other, stopping where one stops the process. -/
def runSteps : List Step → State → Res Unit
  | [], s => .ok () s
  | st :: rest, s => (runStep st s).andThen fun _ s => runSteps rest s

/-- What no file or network operation touches: the `VersionUpdate` value, the working
directory, the HTTP resources and the steps entered so far. -/
def Frame (s t : State) : Prop :=
  t.vu = s.vu ∧ t.cwd = s.cwd ∧ t.net = s.net ∧ t.steps = s.steps

/-- The version a node holds when read as a version record, and whether reading fails:
what `readVersionLog` makes of the node it opens. -/
def recordVersion (found : Option Node) : String × Bool :=
  match found with
  | some (.file _ (.json versionMap)) =>
    ((List.lookup "version" versionMap.reverse).getD "", false)
  | _ => ("", true)

/-- The state after `vu.LatestVersion = vu.GetLatestVersion()`. -/
def withLatest (s : State) (latest : String) : State :=
  { s with vu := { s.vu with LatestVersion := latest } }

/-- The state after `vu.InstalledVersion = vu.GetInstalledVersion()`. -/
def withInstalled (s : State) (installed : String) : State :=
  { s with vu := { s.vu with InstalledVersion := installed } }

/-- The state in which `main` starts working: `vu` freshly made by `NewVersionUpdate`. -/
def boot (s : State) : State :=
  { s with vu := NewVersionUpdate }

/-- The version the first log line gives, or how reading it stops the process: what
`readFirstLogLine` makes of the node it opens. -/
def firstLineVersion (found : Option Node) : Except Halt String :=
  match found with
  | none => .error (.exit 1)
  | some file =>
    match scanFirstLine file with
    | .error _ => .error (.exit 1)
    | .ok firstLine =>
      match (Split firstLine "+")[1]? with
      | none => .error .goPanic
      | some afterPlus =>
        match (Split afterPlus "|")[0]? with
        | none => .error .goPanic
        | some v => .ok v

/-- What holds of a step other than the last: it is entered once, changes nothing but the
file tree, and stops the process, if at all, with status 1. -/
def StepOK (st : Step) (s : State) (r : Res Unit) : Prop :=
  Frame (s.record (.step st)) r.st ∧ (r.halted = none ∨ r.halted = some (.exit 1))

/-! ## Concrete states -/

/-- A small installation whose server log has the given content and which has no version
record; the release URL redirects to the tag `v1.4.4.9`. -/
def logState (content : String) : State :=
  { vu := NewVersionUpdate
    cwd := "/root"
    fs :=
      [ ("/root", .dir 493),
        ("/root/tModLoader", .dir 493),
        ("/root/tModLoader/tModLoader-Logs", .dir 493),
        ("/root/tModLoader/tModLoader-Logs/server.log", .file 420 (.raw content)) ]
    net :=
      [ ("https://github.com/tModLoader/tModLoader/releases/latest",
          { finalURL := "https://github.com/tModLoader/tModLoader/releases/tag/v1.4.4.9"
            body := .raw "" }) ]
    trace := [] }

/-- A state in which the release URL redirects to `finalURL`. -/
def urlState (finalURL : String) : State :=
  { vu := NewVersionUpdate
    cwd := "/root"
    fs := [ ("/root", .dir 493) ]
    net :=
      [ ("https://github.com/tModLoader/tModLoader/releases/latest",
          { finalURL := finalURL, body := .raw "" }) ]
    trace := [] }

/-- A start script. -/
def script : Node := .file 420 (.raw "#!/bin/sh\n")

/-- An installation under `/root` with a backup directory, a data directory, the three
configuration files and a server log of the given content, but no version record. -/
def siteFS (log : String) : FS :=
  [ ("/root", .dir 493),
    ("/root/backup", .dir 493),
    ("/root/.local", .dir 493),
    ("/root/.local/share", .dir 493),
    ("/root/.local/share/Terraria", .dir 493),
    ("/root/tModLoader", .dir 493),
    ("/root/tModLoader/boot_start.sh", script),
    ("/root/tModLoader/start.sh", script),
    ("/root/tModLoader/serverconfig.txt", .file 420 (.raw "port=7777\n")),
    ("/root/tModLoader/tModLoader-Logs", .dir 493),
    ("/root/tModLoader/tModLoader-Logs/server.log", .file 420 (.raw log)) ]

/-- The distribution archive of release `2023.8.3.1`. -/
def distribution : Data :=
  .zip
    [ ("Libraries/", .dir 493),
      ("Libraries/a.dll", .file 420 (.raw "dll")),
      ("serverconfig.txt", .file 420 (.raw "default\n")),
      ("start-tModLoader.sh", script) ]

/-- The release host: the release URL redirects to the tag `v2023.8.3.1`; the archive of
that release can be downloaded when `reachable` is set. -/
def releaseNet (reachable : Bool) : List (String × HttpResp) :=
  ("https://github.com/tModLoader/tModLoader/releases/latest",
    { finalURL := "https://github.com/tModLoader/tModLoader/releases/tag/v2023.8.3.1"
      body := .raw "" }) ::
  (if reachable then
    [ ("https://github.com/tModLoader/tModLoader/releases/download/v2023.8.3.1/tModLoader.zip",
        { finalURL :=
            "https://github.com/tModLoader/tModLoader/releases/download/v2023.8.3.1/tModLoader.zip"
          body := distribution }) ]
  else [])

/-- An installation ready for an upgrade run. -/
def siteState (log : String) (reachable : Bool) : State :=
  { vu := NewVersionUpdate
    cwd := "/root"
    fs := siteFS log
    net := releaseNet reachable
    trace := [] }

/-- An installation whose version record holds `2023.8.3.1`, the latest release. -/
def currentState : State :=
  { vu := NewVersionUpdate
    cwd := "/root"
    fs :=
      [ ("/root", .dir 493),
        ("/root/tModLoader", .dir 493),
        ("/root/tModLoader/version_update.json", .file 420 (.json [("version", "2023.8.3.1")])) ]
    net := releaseNet true
    trace := [] }

/-- A state holding a zip archive with the single file entry `a/b.txt` (no entry for the
directory `a/`) and an existing, empty destination directory `/srv/new`. -/
def zipState : State :=
  { vu := NewVersionUpdate
    cwd := "/srv"
    fs :=
      [ ("/srv", .dir 493),
        ("/srv/new", .dir 493),
        ("/srv/dist.zip", .file 420 (.zip [("a/b.txt", .file 420 (.raw "hello"))])) ]
    net := []
    trace := [] }

/-- The same state, the archive now listing the directory `a/` before the file. -/
def zipStateWithDir : State :=
  { vu := NewVersionUpdate
    cwd := "/srv"
    fs :=
      [ ("/srv", .dir 493),
        ("/srv/new", .dir 493),
        ("/srv/dist.zip",
          .file 420 (.zip [("a/", .dir 493), ("a/b.txt", .file 420 (.raw "hello"))])) ]
    net := []
    trace := [] }

/-! ## Lemmas on `strings.Split` -/

theorem getLast?_cons_ne_nil {α : Type} (a : α) {l : List α} (h : l ≠ []) :
    (a :: l).getLast? = l.getLast? := by
  cases l with
  | nil => exact absurd rfl h
  | cons b t => simp [List.getLast?_cons_cons]

theorem splitGo_ne_nil (sep : List Char) (s : List Char) : ∀ (k : Nat) (cur : List Char),
    splitGo sep k cur s ≠ [] := by
  induction s with
  | nil => intro k cur; simp [splitGo]
  | cons x xs ih =>
    intro k cur
    cases k with
    | zero =>
      simp only [splitGo]
      split
      · simp
      · exact ih _ _
    | succ k => simpa [splitGo] using ih k cur

/-- One unfolding of the scanner for a one-character separator: the first segment is what
precedes the first separator, the rest is the split of what follows it. -/
theorem splitGo_single (c : Char) (s : List Char) : ∀ cur : List Char,
    splitGo [c] 0 cur s =
      (cur.reverse ++ s.takeWhile (fun x => x != c)) ::
        (match s.dropWhile (fun x => x != c) with
          | [] => []
          | _ :: rest => splitGo [c] 0 [] rest) := by
  induction s with
  | nil => intro cur; simp [splitGo]
  | cons x xs ih =>
    intro cur
    by_cases h : x = c
    · subst h
      simp [splitGo, List.isPrefixOf]
    · have h1 : c ≠ x := fun e => h e.symm
      simp [splitGo, List.isPrefixOf, h, h1, ih (x :: cur)]

/-- The last segment of a split at `c` is a suffix without `c` that starts right after a
`c` or at the beginning. -/
theorem splitGo_last (c : Char) (s : List Char) : ∀ cur : List Char,
    ∃ pre last, (splitGo [c] 0 cur s).getLast? = some last ∧
      cur.reverse ++ s = pre ++ last ∧
      (pre = [] ∨ pre.getLast? = some c) ∧
      (c ∉ cur → c ∉ last) := by
  induction s with
  | nil => intro cur; exact ⟨[], cur.reverse, by simp [splitGo], by simp, Or.inl rfl, by simp⟩
  | cons x xs ih =>
    intro cur
    by_cases h : x = c
    · subst h
      obtain ⟨pre, last, h1, h2, h3, h4⟩ := ih []
      refine ⟨cur.reverse ++ x :: pre, last, ?_, ?_, Or.inr ?_, fun _ => h4 (by simp)⟩
      · have hne := splitGo_ne_nil [x] xs 0 []
        simp only [splitGo, List.isPrefixOf, beq_self_eq_true, Bool.and_true, if_true,
          List.length_singleton, Nat.sub_self, Bool.true_and]
        rw [getLast?_cons_ne_nil _ hne]
        exact h1
      · simp at h2; simp [h2]
      · rcases h3 with h3 | h3
        · subst h3; simp
        · have hp : pre ≠ [] := by intro e; simp [e] at h3
          rw [List.getLast?_append_of_ne_nil _ (by simp), getLast?_cons_ne_nil _ hp]
          exact h3
    · have h1 : c ≠ x := fun e => h e.symm
      obtain ⟨pre, last, h2, h3, h4, h5⟩ := ih (x :: cur)
      refine ⟨pre, last, ?_, ?_, h4, fun hc => h5 (by simp [hc, h1])⟩
      · simpa [splitGo, List.isPrefixOf, h1] using h2
      · simpa using h3

theorem takeWhile_ne_append (c : Char) (pre rest : List Char) (h : c ∉ pre) :
    (pre ++ c :: rest).takeWhile (fun x => x != c) = pre := by
  induction pre with
  | nil => simp
  | cons a t ih =>
    have ha : a ≠ c := fun e => h (by simp [e])
    have ht : c ∉ t := fun e => h (by simp [e])
    have hb : (a != c) = true := by simp [ha]
    simp [List.takeWhile_cons, hb, ih ht]

theorem dropWhile_ne_append (c : Char) (pre rest : List Char) (h : c ∉ pre) :
    (pre ++ c :: rest).dropWhile (fun x => x != c) = c :: rest := by
  induction pre with
  | nil => simp
  | cons a t ih =>
    have ha : a ≠ c := fun e => h (by simp [e])
    have ht : c ∉ t := fun e => h (by simp [e])
    have hb : (a != c) = true := by simp [ha]
    simp [List.dropWhile_cons, hb, ih ht]

theorem dropWhile_ne_of_not_mem (c : Char) (l : List Char) (h : c ∉ l) :
    l.dropWhile (fun x => x != c) = [] := by
  induction l with
  | nil => rfl
  | cons a t ih =>
    have ha : a ≠ c := fun e => h (by simp [e])
    have ht : c ∉ t := fun e => h (by simp [e])
    have hb : (a != c) = true := by simp [ha]
    simp [List.dropWhile_cons, hb, ih ht]

theorem exists_first_occurrence (c : Char) (l : List Char) (h : c ∈ l) :
    ∃ pre rest : List Char, l = pre ++ c :: rest ∧ c ∉ pre := by
  induction l with
  | nil => simp at h
  | cons a t ih =>
    by_cases ha : a = c
    · subst ha; exact ⟨[], t, rfl, by simp⟩
    · have ht : c ∈ t := by
        rcases List.mem_cons.mp h with e | e
        · exact absurd e.symm ha
        · exact e
      obtain ⟨pre, rest, h1, h2⟩ := ih ht
      refine ⟨a :: pre, rest, by simp [h1], ?_⟩
      intro hm
      rcases List.mem_cons.mp hm with e | e
      · exact ha e.symm
      · exact h2 e

/-! ## Version resolution from the release URL -/

/-- Trimming with the cut set `v` removes a block of `v` and leaves a string that does not
begin with `v`. -/
theorem trimLeft_v (l : List Char) : ∃ k : Nat,
    l = List.replicate k 'v' ++ (TrimLeft (String.mk l) "v").data ∧
    (TrimLeft (String.mk l) "v").data.head? ≠ some 'v' := by
  induction l with
  | nil => exact ⟨0, by simp [TrimLeft], by simp [TrimLeft]⟩
  | cons a t ih =>
    obtain ⟨k, h1, h2⟩ := ih
    by_cases ha : a = 'v'
    · subst ha
      refine ⟨k + 1, ?_, ?_⟩
      · have e : (TrimLeft (String.mk ('v' :: t)) "v").data = (TrimLeft (String.mk t) "v").data := by
          simp [TrimLeft, List.dropWhile_cons]
        rw [e, List.replicate_succ, List.cons_append, ← h1]
      · have e : (TrimLeft (String.mk ('v' :: t)) "v").data = (TrimLeft (String.mk t) "v").data := by
          simp [TrimLeft, List.dropWhile_cons]
        rw [e]; exact h2
    · have e : (TrimLeft (String.mk (a :: t)) "v").data = a :: t := by
        simp [TrimLeft, List.dropWhile_cons, ha]
      exact ⟨0, by simp [e], by simp [e, ha]⟩

/-! ## Version extraction from the first log line -/

theorem takeWhile_ne_append_left (c : Char) (mid rest : List Char) (h : c ∉ mid) :
    (mid ++ rest).takeWhile (fun x => x != c) = mid ++ rest.takeWhile (fun x => x != c) := by
  induction mid with
  | nil => simp
  | cons a t ih =>
    have ha : a ≠ c := fun e => h (by simp [e])
    have ht : c ∉ t := fun e => h (by simp [e])
    have hb : (a != c) = true := by simp [ha]
    simp [List.takeWhile_cons, hb, ih ht]

theorem Split_plus (line : String) :
    Split line "+" = (splitGo ['+'] 0 [] line.data).map String.mk := by
  simp [Split]

theorem Split_bar (part : String) :
    Split part "|" = (splitGo ['|'] 0 [] part.data).map String.mk := by
  simp [Split]

/-- A line without `+` splits into one part, so there is no part with index 1. -/
theorem Split_plus_second_none (line : String) (h : '+' ∉ line.data) :
    (Split line "+")[1]? = none := by
  rw [Split_plus, splitGo_single, dropWhile_ne_of_not_mem _ _ h]
  rfl

/-- The part with index 1 of a line that has a `+`: what stands between the first `+` and
the next one (or the end of the line). -/
theorem Split_plus_second (line : String) (pre rest : List Char)
    (h : line.data = pre ++ '+' :: rest) (hpre : '+' ∉ pre) :
    (Split line "+")[1]? = some (String.mk (rest.takeWhile (fun x => x != '+'))) := by
  rw [Split_plus, splitGo_single, h, dropWhile_ne_append _ _ _ hpre]
  simp only [List.map_cons, List.getElem?_cons_succ]
  rw [splitGo_single]
  simp

/-- The part with index 0 of a split at `|`: what precedes the first `|`. -/
theorem Split_bar_first (part : String) :
    (Split part "|")[0]? = some (String.mk (part.data.takeWhile (fun x => x != '|'))) := by
  rw [Split_bar, splitGo_single]
  simp

/-- The body of `readFirstLogLine` once the first line is known. -/
theorem readFirstLogLine_of_line (s : State) (file : Node) (line : String)
    (hopen : (osOpen s s.vu.LogFile).1 = some file)
    (hscan : scanFirstLine file = .ok line) :
    readFirstLogLine s =
      match (Split line "+")[1]? with
      | none => .halt .goPanic (s.record (.osOpen s.vu.LogFile))
      | some afterPlus =>
        .ok (String.mk (afterPlus.data.takeWhile (fun x => x != '|')))
          (s.record (.osOpen s.vu.LogFile)) := by
  simp only [osOpen] at hopen
  simp only [readFirstLogLine, osOpen, hopen, hscan]
  cases hq : (Split line "+")[1]? with
  | none => rfl
  | some afterPlus => simp only [Split_bar_first]

/-! ## Claims on version resolution -/

/-- C6 (as amended): for every final resolved URL, `GetLatestVersion` returns the last
`/`-separated segment of the URL with all its leading `v` characters stripped: the URL is
`pre ++ v…v ++ result` where `pre` is empty or ends in `/`, and the result contains no
`/` and does not begin with `v`. -/
theorem GetLatestVersion_strips_all_leading_v (s : State) (resp : HttpResp)
    (h : httpGet s s.vu.ImageURL = some resp) :
    ∃ (pre : List Char) (k : Nat) (v : String),
      GetLatestVersion s = .ok v s ∧
      resp.finalURL.data = pre ++ List.replicate k 'v' ++ v.data ∧
      (pre = [] ∨ pre.getLast? = some '/') ∧ '/' ∉ v.data ∧ v.data.head? ≠ some 'v' := by
  obtain ⟨pre, last, h1, h2, h3, h4⟩ := splitGo_last '/' resp.finalURL.data []
  obtain ⟨k, h5, h6⟩ := trimLeft_v last
  have hs : (Split resp.finalURL "/")[(Split resp.finalURL "/").length - 1]? =
      some (String.mk last) := by
    rw [← List.getLast?_eq_getElem?]
    have : Split resp.finalURL "/" = (splitGo ['/'] 0 [] resp.finalURL.data).map String.mk := by
      simp [Split]
    rw [this, List.getLast?_map, h1]
    rfl
  refine ⟨pre, k, TrimLeft (String.mk last) "v", ?_, ?_, h3, ?_, h6⟩
  · simp only [GetLatestVersion, h, hs]
  · simp only [List.reverse_nil, List.nil_append] at h2
    rw [h2, List.append_assoc, ← h5]
  · have hl : '/' ∉ last := h4 (by simp)
    intro hm
    apply hl
    rw [h5]
    exact List.mem_append_right _ hm

/-- Witness for C6: the theorem applied to a release URL ending in `/v1.4.4.9`. -/
theorem GetLatestVersion_strips_all_leading_v_witness :
    ∃ (pre : List Char) (k : Nat) (v : String),
      GetLatestVersion (urlState "https://github.com/tModLoader/tModLoader/releases/tag/v1.4.4.9")
        = .ok v (urlState "https://github.com/tModLoader/tModLoader/releases/tag/v1.4.4.9") ∧
      "https://github.com/tModLoader/tModLoader/releases/tag/v1.4.4.9".data
        = pre ++ List.replicate k 'v' ++ v.data ∧
      (pre = [] ∨ pre.getLast? = some '/') ∧ '/' ∉ v.data ∧ v.data.head? ≠ some 'v' :=
  GetLatestVersion_strips_all_leading_v
    (urlState "https://github.com/tModLoader/tModLoader/releases/tag/v1.4.4.9")
    { finalURL := "https://github.com/tModLoader/tModLoader/releases/tag/v1.4.4.9"
      body := .raw "" }
    rfl

/-- C6 as stated fails: for the final URL `…/tag/vv1.4.4.9` the claim promises the segment
minus its first character, `v1.4.4.9`, while `GetLatestVersion` returns `1.4.4.9`. -/
theorem GetLatestVersion_strips_one_v_counterexample :
    ¬ ∀ (s : State) (resp : HttpResp), httpGet s s.vu.ImageURL = some resp →
        GetLatestVersion s = .ok (stripOneV (lastSegment resp.finalURL)) s := by
  intro h
  have e := congrArg Res.value
    (h (urlState "https://github.com/tModLoader/tModLoader/releases/tag/vv1.4.4.9")
      { finalURL := "https://github.com/tModLoader/tModLoader/releases/tag/vv1.4.4.9"
        body := .raw "" } rfl)
  exact absurd e (by decide)

/-- C7 (as amended): for every first log line of the form `pre + mid | post` in which
`pre` has no `+` and `mid` has neither `+` nor `|` (a `+` followed later by a `|` with no
further `+` in between), `readFirstLogLine` returns exactly `mid`, the substring strictly
between the first `+` and the next `|`. -/
theorem readFirstLogLine_between_plus_and_bar (s : State) (file : Node)
    (pre mid post : List Char)
    (hopen : (osOpen s s.vu.LogFile).1 = some file)
    (hscan : scanFirstLine file = .ok (String.mk (pre ++ '+' :: (mid ++ '|' :: post))))
    (hpre : '+' ∉ pre) (hmid : '+' ∉ mid) (hbar : '|' ∉ mid) :
    readFirstLogLine s = .ok (String.mk mid) (s.record (.osOpen s.vu.LogFile)) := by
  rw [readFirstLogLine_of_line s file _ hopen hscan,
    Split_plus_second _ pre (mid ++ '|' :: post) rfl hpre]
  have hcons : List.takeWhile (fun x => x != '+') ('|' :: post) =
      '|' :: List.takeWhile (fun x => x != '+') post := by
    simp [List.takeWhile_cons]
  simp only
  rw [takeWhile_ne_append_left _ _ _ hmid, hcons, takeWhile_ne_append _ _ _ hbar]

/-- Witness for C7: a log whose first line is `tModLoader 1.4.4.9+2023.6.25.33|stable`. -/
theorem readFirstLogLine_between_plus_and_bar_witness :
    readFirstLogLine (logState "tModLoader 1.4.4.9+2023.6.25.33|stable\nnext line\n") =
      .ok "2023.6.25.33"
        ((logState "tModLoader 1.4.4.9+2023.6.25.33|stable\nnext line\n").record
          (.osOpen "/root/tModLoader/tModLoader-Logs/server.log")) :=
  readFirstLogLine_between_plus_and_bar
    (logState "tModLoader 1.4.4.9+2023.6.25.33|stable\nnext line\n")
    (.file 420 (.raw "tModLoader 1.4.4.9+2023.6.25.33|stable\nnext line\n"))
    "tModLoader 1.4.4.9".data "2023.6.25.33".data "stable".data
    rfl rfl (by decide) (by decide) (by decide)

/-- C7 as stated fails: on the first line `a+b+c|d` the substring between the first `+`
and the next `|` is `b+c`, while `readFirstLogLine` returns `b`. -/
theorem readFirstLogLine_between_counterexample :
    ¬ ∀ (s : State) (file : Node) (line : String),
        (osOpen s s.vu.LogFile).1 = some file → scanFirstLine file = .ok line →
        (∃ pre post : List Char, line.data = pre ++ '+' :: post ∧ '|' ∈ post) →
        readFirstLogLine s = .ok (betweenPlusAndBar line) (s.record (.osOpen s.vu.LogFile)) := by
  intro h
  have e := congrArg Res.value
    (h (logState "a+b+c|d\n") (.file 420 (.raw "a+b+c|d\n")) "a+b+c|d" rfl rfl
      ⟨['a'], "b+c|d".data, rfl, by decide⟩)
  exact absurd e (by decide)

/-- A first line that contains a `+` is never rejected: `readFirstLogLine` returns a value
for it, whether or not the line contains a `|`. -/
theorem readFirstLogLine_returns_of_plus (s : State) (file : Node) (line : String)
    (hopen : (osOpen s s.vu.LogFile).1 = some file)
    (hscan : scanFirstLine file = .ok line) (hyes : '+' ∈ line.data) :
    ∃ v, readFirstLogLine s = .ok v (s.record (.osOpen s.vu.LogFile)) := by
  obtain ⟨pre, rest, hsplit, hpre⟩ := exists_first_occurrence '+' line.data hyes
  rw [readFirstLogLine_of_line s file line hopen hscan,
    Split_plus_second line pre rest hsplit hpre]
  exact ⟨_, rfl⟩

/-- C8 (as amended): for every first log line that contains no `+` (the empty line of an
empty log file included) `readFirstLogLine` fails fatally, by a run-time panic on the
missing part, and returns no version string. -/
theorem readFirstLogLine_fails_without_plus (s : State) (file : Node) (line : String)
    (hopen : (osOpen s s.vu.LogFile).1 = some file)
    (hscan : scanFirstLine file = .ok line) (hno : '+' ∉ line.data) :
    readFirstLogLine s = .halt .goPanic (s.record (.osOpen s.vu.LogFile)) ∧
    (readFirstLogLine s).value = none := by
  have h : readFirstLogLine s = .halt .goPanic (s.record (.osOpen s.vu.LogFile)) := by
    rw [readFirstLogLine_of_line s file line hopen hscan, Split_plus_second_none line hno]
  exact ⟨h, by rw [h]; rfl⟩

/-- Witness for C8: an empty log file, whose first line is the empty line. -/
theorem readFirstLogLine_fails_without_plus_witness :
    readFirstLogLine (logState "") =
      .halt .goPanic
        ((logState "").record (.osOpen "/root/tModLoader/tModLoader-Logs/server.log")) ∧
    (readFirstLogLine (logState "")).value = none :=
  readFirstLogLine_fails_without_plus (logState "") (.file 420 (.raw "")) "" rfl rfl
    (by decide)

/-- C8 as stated fails: the first line `server 1.4.4.9+2023.6.25.33` has no `|`, yet
`readFirstLogLine` returns the value `2023.6.25.33` for it. -/
theorem readFirstLogLine_missing_bar_counterexample :
    ¬ ∀ (s : State) (file : Node) (line : String),
        (osOpen s s.vu.LogFile).1 = some file → scanFirstLine file = .ok line →
        ('+' ∉ line.data ∨ '|' ∉ line.data) →
        (readFirstLogLine s).value = none := by
  intro h
  have e := h (logState "server 1.4.4.9+2023.6.25.33\n")
    (.file 420 (.raw "server 1.4.4.9+2023.6.25.33\n")) "server 1.4.4.9+2023.6.25.33" rfl rfl
    (Or.inr (by decide))
  exact absurd e (by decide)

/-! ## Frame lemmas: what the file operations leave alone -/

theorem Frame.refl (s : State) : Frame s s := ⟨rfl, rfl, rfl, rfl⟩

theorem Frame.trans {s t u : State} (h1 : Frame s t) (h2 : Frame t u) : Frame s u :=
  ⟨h2.1.trans h1.1, h2.2.1.trans h1.2.1, h2.2.2.1.trans h1.2.2.1, h2.2.2.2.trans h1.2.2.2⟩

theorem frame_fs (s : State) (fs : FS) : Frame s { s with fs := fs } := ⟨rfl, rfl, rfl, rfl⟩

theorem frame_record_osOpen (s : State) (p : String) : Frame s (s.record (.osOpen p)) := by
  refine ⟨rfl, rfl, rfl, ?_⟩
  simp [State.steps, State.record, List.filterMap_append]

theorem steps_record_step (s : State) (st : Step) :
    (s.record (.step st)).steps = s.steps ++ [st] := by
  simp [State.steps, State.record, List.filterMap_append]

theorem osOpen_frame (s : State) (name : String) : Frame s (osOpen s name).2 :=
  frame_record_osOpen s name

theorem osCreate_frame {s t : State} {name key : String}
    (h : osCreate s name = .ok (key, t)) : Frame s t := by
  unfold osCreate at h
  split at h
  · cases h
  · split at h
    · cases h
    · cases h; exact frame_fs _ _
    · split at h
      · cases h; exact frame_fs _ _
      · cases h
      · cases h

theorem writeData_frame (s : State) (key : String) (data : Data) :
    Frame s (writeData s key data) := by
  unfold writeData
  split
  · exact frame_fs _ _
  · exact Frame.refl s

theorem osRename_frame {s t : State} {a b : String} (h : osRename s a b = .ok t) :
    Frame s t := by
  unfold osRename at h
  split at h
  · split at h
    · cases h
    · split at h
      · cases h
      · split at h
        · cases h; exact Frame.refl _
        · split at h
          · cases h
          · cases h
          · simp only at h
            split at h
            · cases h
            · cases h; exact frame_fs _ _
            · cases h
            · split at h
              · cases h
              · split at h
                · cases h
                · cases h; exact frame_fs _ _
  · cases h

theorem osMkdir_frame {s t : State} {a : String} (h : osMkdir s a = .ok t) : Frame s t := by
  unfold osMkdir at h
  split at h
  · cases h
  · split at h
    · cases h
    · split at h
      · cases h; exact frame_fs _ _
      · cases h
      · cases h

theorem osMkdirAll_frame {s t : State} {a : String} (h : osMkdirAll s a = .ok t) :
    Frame s t := by
  unfold osMkdirAll at h
  split at h
  · cases h
  · split at h
    · cases h
    · cases h; exact frame_fs _ _

theorem osChmod_frame {s t : State} {a : String} {m : Nat} (h : osChmod s a m = .ok t) :
    Frame s t := by
  unfold osChmod at h
  split at h
  · cases h
  · split at h
    · cases h
    · cases h; exact frame_fs _ _
    · cases h; exact frame_fs _ _

theorem foldl_record_frame (l : FS) : ∀ s : State,
    Frame s (l.foldl (fun s e =>
        match e.2 with
        | .file _ _ => s.record (.osOpen e.1)
        | .dir _ => s) s) := by
  induction l with
  | nil => intro s; exact Frame.refl s
  | cons e t ih =>
    intro s
    simp only [List.foldl_cons]
    refine Frame.trans ?_ (ih _)
    split
    · exact frame_record_osOpen _ _
    · exact Frame.refl _

theorem tarGz_frame (a b c : String) (s : State) : Frame s (tarGz a b c s).2 := by
  unfold tarGz
  split
  · exact Frame.refl _
  · rename_i key t h
    have h1 := osCreate_frame h
    split
    · exact h1.trans (writeData_frame _ _ _)
    · exact h1.trans ((foldl_record_frame _ _).trans (writeData_frame _ _ _))

theorem downloadFile_frame (a b : String) (s : State) : Frame s (downloadFile a b s).2 := by
  unfold downloadFile
  split
  · exact Frame.refl _
  · rename_i key t h
    have h1 := osCreate_frame h
    split
    · exact h1
    · exact h1.trans (writeData_frame _ _ _)

theorem unzipLoop_frame (dir : String) (l : List (String × Node)) : ∀ s : State,
    Frame s (unzipLoop dir l s).2 := by
  induction l with
  | nil => intro s; exact Frame.refl s
  | cons e t ih =>
    intro s
    obtain ⟨name, node⟩ := e
    simp only [unzipLoop]
    split
    · split
      · exact Frame.refl _
      · rename_i t1 h
        exact (osMkdirAll_frame h).trans (ih _)
    · split
      · exact Frame.refl _
      · rename_i key t1 h
        exact (osCreate_frame h).trans ((writeData_frame _ _ _).trans (ih _))

theorem unzip_frame (a b : String) (s : State) : Frame s (unzip a b s).2 := by
  unfold unzip
  have h0 : Frame s (zipOpenReader s a).2 := by
    unfold zipOpenReader
    have := osOpen_frame s a
    split
    · rename_i h; rw [h] at this; exact this
    · rename_i h; rw [h] at this; exact this
  split
  · rename_i t h; rw [h] at h0; exact h0
  · rename_i entries t h
    rw [h] at h0
    exact h0.trans (unzipLoop_frame _ _ _)

theorem copyFile_frame (a b : String) (s : State) : Frame s (copyFile a b s).2 := by
  unfold copyFile
  have h0 := osOpen_frame s a
  split
  · rename_i t h; rw [h] at h0; exact h0
  · rename_i node t h
    rw [h] at h0
    split
    · exact h0
    · rename_i key t1 h1
      have h2 := h0.trans (osCreate_frame h1)
      split
      · exact h2
      · exact h2.trans (writeData_frame _ _ _)

theorem moveConfigLoop_frame (l : List String) : ∀ s : State,
    Frame s (moveConfigLoop l s).2 := by
  induction l with
  | nil => intro s; exact Frame.refl s
  | cons e t ih =>
    intro s
    simp only [moveConfigLoop]
    split
    · exact Frame.refl _
    · rename_i t1 h
      exact (osRename_frame h).trans (ih _)

theorem copyConfigLoop_frame (l : List String) : ∀ s : State,
    Frame s (copyConfigLoop l s).2 := by
  induction l with
  | nil => intro s; exact Frame.refl s
  | cons e t ih =>
    intro s
    simp only [copyConfigLoop]
    have h0 := copyFile_frame (Sprintf1 e s.vu.InstalledVersion)
      (Join [s.vu.RootDir ++ "/tModLoader", Base e]) s
    split
    · rename_i err t1 h; rw [h] at h0; exact h0
    · rename_i t1 h
      rw [h] at h0
      exact h0.trans (ih _)

theorem chmodLoop_frame (l : List String) : ∀ s : State, Frame s (chmodLoop l s).2 := by
  induction l with
  | nil => intro s; exact Frame.refl s
  | cons e t ih =>
    intro s
    simp only [chmodLoop]
    split
    · exact Frame.refl _
    · rename_i t1 h
      exact (osChmod_frame h).trans (ih _)

theorem writeVersionLog_frame (v : String) (s : State) : Frame s (writeVersionLog v s).st := by
  unfold writeVersionLog
  simp only
  split
  · exact Frame.refl _
  · rename_i key t h
    exact (osCreate_frame h).trans (writeData_frame _ _ _)

theorem resolve_congr {s t : State} (h : t.cwd = s.cwd) (name : String) :
    resolve t name = resolve s name := by
  simp [resolve, h]

theorem fsStat_fsPut (fs : FS) (key : String) (n : Node) :
    fsStat (fsPut fs key n) key = some n := by
  simp [fsStat, fsPut, List.lookup]

theorem readVersionLog_eq (s : State) :
    readVersionLog s =
      (recordVersion ((resolve s s.vu.VersionLogFile).bind (fsStat s.fs)),
        s.record (.osOpen s.vu.VersionLogFile)) := by
  unfold readVersionLog osOpen recordVersion
  cases (resolve s s.vu.VersionLogFile).bind (fsStat s.fs) with
  | none => rfl
  | some node =>
    cases node with
    | dir m => rfl
    | file m d => cases d <;> rfl

/-- A successful `osCreate` yields the resolved path, which then holds an empty file. -/
theorem osCreate_ok {s t : State} {name key : String} (h : osCreate s name = .ok (key, t)) :
    resolve s name = some key ∧ ∃ mode, fsStat t.fs key = some (.file mode (.raw "")) := by
  unfold osCreate at h
  split at h
  · cases h
  · rename_i k hk
    split at h
    · cases h
    · cases h; exact ⟨hk, _, fsStat_fsPut _ _ _⟩
    · split at h
      · cases h; exact ⟨hk, _, fsStat_fsPut _ _ _⟩
      · cases h
      · cases h

/-- After a successful `writeVersionLog v` the record file holds exactly the document
with the single member `version = v`. -/
theorem writeVersionLog_ok {v : String} {s t : State} (h : writeVersionLog v s = .ok () t) :
    Frame s t ∧ ∃ key mode, resolve s s.vu.VersionLogFile = some key ∧
      fsStat t.fs key = some (.file mode (.json [("version", v)])) := by
  have hf := writeVersionLog_frame v s
  rw [h] at hf
  refine ⟨hf, ?_⟩
  unfold writeVersionLog at h
  simp only at h
  split at h
  · cases h
  · rename_i key t1 hc
    obtain ⟨h1, mode, h2⟩ := osCreate_ok hc
    refine ⟨key, mode, h1, ?_⟩
    simp only [writeData, h2] at h
    cases h
    exact fsStat_fsPut _ _ _

/-- Reading the record back after a successful `writeVersionLog v` gives `v`. -/
theorem readVersionLog_after_write {v : String} {s t : State}
    (h : writeVersionLog v s = .ok () t) :
    readVersionLog t = ((v, false), t.record (.osOpen t.vu.VersionLogFile)) := by
  obtain ⟨hf, key, mode, h1, h2⟩ := writeVersionLog_ok h
  rw [readVersionLog_eq, resolve_congr hf.2.1, hf.1, h1]
  simp [recordVersion, h2, List.lookup]

/-! ## `GetInstalledVersion` -/

theorem readFirstLogLine_frame (s : State) : Frame s (readFirstLogLine s).st := by
  unfold readFirstLogLine
  have h0 := osOpen_frame s s.vu.LogFile
  split
  · rename_i t h; rw [h] at h0; exact h0
  · rename_i node t h
    rw [h] at h0
    split
    · exact h0
    · split
      · exact h0
      · simp only
        split
        · exact h0
        · exact h0

theorem GetInstalledVersion_frame (s : State) : Frame s (GetInstalledVersion s).st := by
  unfold GetInstalledVersion
  rw [readVersionLog_eq]
  simp only
  have h0 := frame_record_osOpen s s.vu.VersionLogFile
  split
  · have h1 := readFirstLogLine_frame (s.record (.osOpen s.vu.VersionLogFile))
    cases hr : readFirstLogLine (s.record (.osOpen s.vu.VersionLogFile)) with
    | halt h t => rw [hr] at h1; exact h0.trans h1
    | ok v t =>
      rw [hr] at h1
      have h2 := writeVersionLog_frame v t
      simp only [Res.andThen]
      cases hw : writeVersionLog v t with
      | halt h u => rw [hw] at h2; exact h0.trans (h1.trans h2)
      | ok x u => rw [hw] at h2; exact h0.trans (h1.trans h2)
  · exact h0

theorem readFirstLogLine_eq (s : State) :
    readFirstLogLine s =
      match firstLineVersion ((resolve s s.vu.LogFile).bind (fsStat s.fs)) with
      | .ok v => .ok v (s.record (.osOpen s.vu.LogFile))
      | .error h => .halt h (s.record (.osOpen s.vu.LogFile)) := by
  unfold readFirstLogLine osOpen firstLineVersion
  cases (resolve s s.vu.LogFile).bind (fsStat s.fs) with
  | none => rfl
  | some file =>
    simp only
    cases scanFirstLine file with
    | error e => rfl
    | ok firstLine =>
      simp only
      cases (Split firstLine "+")[1]? with
      | none => rfl
      | some afterPlus =>
        simp only
        cases (Split afterPlus "|")[0]? with
        | none => rfl
        | some v => rfl

theorem lookup_filter_ne (fs : FS) (key k : String) (h : k ≠ key) :
    List.lookup k (fs.filter (fun e => e.1 != key)) = List.lookup k fs := by
  induction fs with
  | nil => rfl
  | cons e t ih =>
    obtain ⟨a, n⟩ := e
    by_cases ha : a = key
    · subst ha
      have hk : (k == a) = false := by simp [h]
      simp [List.filter, List.lookup, hk, ih]
    · have hb : (a != key) = true := by simp [ha]
      simp only [List.filter, hb, List.lookup, ih]

theorem fsStat_fsPut_ne (fs : FS) (key k : String) (n : Node) (h : k ≠ key) :
    fsStat (fsPut fs key n) k = fsStat fs k := by
  have hk : (k == key) = false := by simp [h]
  simp only [fsStat, fsPut, List.lookup, hk, lookup_filter_ne fs key k h]

theorem osCreate_other {s t : State} {name key : String} (h : osCreate s name = .ok (key, t))
    (k : String) (hk : k ≠ key) : fsStat t.fs k = fsStat s.fs k := by
  unfold osCreate at h
  split at h
  · cases h
  · split at h
    · cases h
    · cases h; exact fsStat_fsPut_ne _ _ _ _ hk
    · split at h
      · cases h; exact fsStat_fsPut_ne _ _ _ _ hk
      · cases h
      · cases h

theorem writeData_other (s : State) (key : String) (data : Data) (k : String) (hk : k ≠ key) :
    fsStat (writeData s key data).fs k = fsStat s.fs k := by
  unfold writeData
  split
  · exact fsStat_fsPut_ne _ _ _ _ hk
  · rfl

/-- A successful `writeVersionLog` leaves every other path as it was. -/
theorem writeVersionLog_other {v : String} {s t : State} {key : String}
    (h : writeVersionLog v s = .ok () t) (hkey : resolve s s.vu.VersionLogFile = some key)
    (k : String) (hk : k ≠ key) : fsStat t.fs k = fsStat s.fs k := by
  unfold writeVersionLog at h
  simp only at h
  split at h
  · cases h
  · rename_i key1 t1 hc
    have e : key1 = key := by
      have := (osCreate_ok hc).1
      rw [hkey] at this
      exact (Option.some.inj this).symm
    subst e
    cases h
    rw [writeData_other _ _ _ _ hk, osCreate_other hc k hk]

/-- Writing the record succeeds when the record file already exists as a regular file. -/
theorem writeVersionLog_again (v : String) (s : State) (key : String) (mode : Nat) (d : Data)
    (hkey : resolve s s.vu.VersionLogFile = some key)
    (hfile : fsStat s.fs key = some (.file mode d)) :
    ∃ t, writeVersionLog v s = .ok () t := by
  unfold writeVersionLog osCreate
  simp only [hkey, hfile]
  exact ⟨_, rfl⟩

/-- How a first `GetInstalledVersion` returns: from a record with a non-empty version,
untouched, or from the log, writing the record. -/
theorem GetInstalledVersion_ok {s s1 : State} {v : String}
    (h : GetInstalledVersion s = .ok v s1) :
    ((recordVersion ((resolve s s.vu.VersionLogFile).bind (fsStat s.fs))).1 = v ∧ v ≠ "" ∧
      s1 = s.record (.osOpen s.vu.VersionLogFile)) ∨
    (firstLineVersion ((resolve s s.vu.LogFile).bind (fsStat s.fs)) = .ok v ∧
      writeVersionLog v ((s.record (.osOpen s.vu.VersionLogFile)).record (.osOpen s.vu.LogFile))
        = .ok () s1) := by
  unfold GetInstalledVersion at h
  rw [readVersionLog_eq] at h
  simp only at h
  split at h
  · rw [readFirstLogLine_eq] at h
    have e : (resolve (s.record (.osOpen s.vu.VersionLogFile))
        (s.record (.osOpen s.vu.VersionLogFile)).vu.LogFile).bind
          (fsStat (s.record (.osOpen s.vu.VersionLogFile)).fs) =
        (resolve s s.vu.LogFile).bind (fsStat s.fs) := rfl
    rw [e] at h
    cases hf : firstLineVersion ((resolve s s.vu.LogFile).bind (fsStat s.fs)) with
    | error x => rw [hf] at h; cases h
    | ok v1 =>
      rw [hf] at h
      simp only [Res.andThen] at h
      cases hw : writeVersionLog v1
          ((s.record (.osOpen s.vu.VersionLogFile)).record
            (.osOpen (s.record (.osOpen s.vu.VersionLogFile)).vu.LogFile)) with
      | halt x u => rw [hw] at h; cases h
      | ok x u =>
        rw [hw] at h
        cases h
        exact Or.inr ⟨rfl, hw⟩
  · rename_i hne
    cases h
    exact Or.inl ⟨rfl, hne, rfl⟩

/-! ## The upgrade steps -/

theorem BackupExecs_ok (s : State) : StepOK .BackupExecs s (BackupExecs s) := by
  unfold BackupExecs
  simp only
  split
  · rename_i e t h
    have h0 := congrArg Prod.snd h
    simp only at h0
    refine ⟨?_, Or.inr rfl⟩
    show Frame _ t
    rw [← h0]
    exact tarGz_frame _ _ _ _
  · rename_i t h
    have h0 := congrArg Prod.snd h
    simp only at h0
    refine ⟨?_, Or.inl rfl⟩
    show Frame _ t
    rw [← h0]
    exact tarGz_frame _ _ _ _

theorem BackupDataFiles_ok (s : State) : StepOK .BackupDataFiles s (BackupDataFiles s) := by
  unfold BackupDataFiles
  simp only
  split
  · rename_i e t h
    have h0 := congrArg Prod.snd h
    simp only at h0
    refine ⟨?_, Or.inr rfl⟩
    show Frame _ t
    rw [← h0]
    exact tarGz_frame _ _ _ _
  · rename_i t h
    have h0 := congrArg Prod.snd h
    simp only at h0
    refine ⟨?_, Or.inl rfl⟩
    show Frame _ t
    rw [← h0]
    exact tarGz_frame _ _ _ _

theorem GetLatestZip_ok (s : State) : StepOK .GetLatestZip s (GetLatestZip s) := by
  unfold GetLatestZip
  simp only
  split
  · rename_i e t h
    have h0 := congrArg Prod.snd h
    simp only at h0
    refine ⟨?_, Or.inr rfl⟩
    show Frame _ t
    rw [← h0]
    exact downloadFile_frame _ _ _
  · rename_i t h
    have h0 := congrArg Prod.snd h
    simp only at h0
    refine ⟨?_, Or.inl rfl⟩
    show Frame _ t
    rw [← h0]
    exact downloadFile_frame _ _ _

theorem ServerSetup_ok (s : State) : StepOK .ServerSetup s (ServerSetup s) := by
  unfold ServerSetup
  simp only
  split
  · rename_i e t h
    have h0 := congrArg Prod.snd h
    simp only at h0
    refine ⟨?_, Or.inr rfl⟩
    show Frame _ t
    rw [← h0]
    exact unzip_frame _ _ _
  · rename_i t h
    have h0 := congrArg Prod.snd h
    simp only at h0
    refine ⟨?_, Or.inl rfl⟩
    show Frame _ t
    rw [← h0]
    exact unzip_frame _ _ _

theorem MoveCurrentDir_ok (s : State) : StepOK .MoveCurrentDir s (MoveCurrentDir s) := by
  unfold MoveCurrentDir
  simp only
  split
  · exact ⟨Frame.refl _, Or.inr rfl⟩
  · rename_i t h
    exact ⟨osRename_frame h, Or.inl rfl⟩

theorem MakeNewDir_ok (s : State) : StepOK .MakeNewDir s (MakeNewDir s) := by
  unfold MakeNewDir
  simp only
  split
  · exact ⟨Frame.refl _, Or.inr rfl⟩
  · rename_i t h
    exact ⟨osMkdir_frame h, Or.inl rfl⟩

/-- The state in which `DeployStartFiles` writes the record, and what it looked like
before the in-memory version was updated. -/
theorem DeployStartFiles_cases (s : State) :
    (∃ t, Frame (s.record (.step .DeployStartFiles)) t ∧
        DeployStartFiles s = .halt (.exit 1) t) ∨
    (∃ t, Frame (s.record (.step .DeployStartFiles)) t ∧
        DeployStartFiles s =
          writeVersionLog t.vu.LatestVersion
            { t with vu := { t.vu with InstalledVersion := t.vu.LatestVersion } }) := by
  unfold DeployStartFiles
  simp only
  have h1 := moveConfigLoop_frame (s.record (.step .DeployStartFiles)).vu.MoveConfigFiles
    (s.record (.step .DeployStartFiles))
  split
  · rename_i e t h
    rw [h] at h1
    exact Or.inl ⟨t, h1, rfl⟩
  · rename_i t h
    rw [h] at h1
    have h2 := copyConfigLoop_frame t.vu.CopyConfigFiles t
    split
    · rename_i e t2 h3
      rw [h3] at h2
      exact Or.inl ⟨t2, h1.trans h2, rfl⟩
    · rename_i t2 h3
      rw [h3] at h2
      have h4 := chmodLoop_frame (Glob t2 (Join [t2.vu.BaseDir, "*.sh"])) t2
      split
      · rename_i e t3 h5
        rw [h5] at h4
        exact Or.inl ⟨t3, h1.trans (h2.trans h4), rfl⟩
      · rename_i t3 h5
        rw [h5] at h4
        exact Or.inr ⟨t3, h1.trans (h2.trans h4), rfl⟩

theorem runStep_steps (st : Step) (s : State) :
    (runStep st s).st.steps = s.steps ++ [st] := by
  have key : ∀ r, StepOK st s r → r.st.steps = s.steps ++ [st] := by
    intro r h
    rw [h.1.2.2.2, steps_record_step]
  cases st with
  | BackupExecs => exact key _ (BackupExecs_ok s)
  | BackupDataFiles => exact key _ (BackupDataFiles_ok s)
  | MoveCurrentDir => exact key _ (MoveCurrentDir_ok s)
  | MakeNewDir => exact key _ (MakeNewDir_ok s)
  | GetLatestZip => exact key _ (GetLatestZip_ok s)
  | ServerSetup => exact key _ (ServerSetup_ok s)
  | DeployStartFiles =>
    simp only [runStep]
    rcases DeployStartFiles_cases s with ⟨t, hf, h⟩ | ⟨t, hf, h⟩
    · rw [h]; simp only [Res.st]; rw [hf.2.2.2, steps_record_step]
    · rw [h]
      have hw := writeVersionLog_frame t.vu.LatestVersion
        { t with vu := { t.vu with InstalledVersion := t.vu.LatestVersion } }
      rw [hw.2.2.2]
      show t.steps = _
      rw [hf.2.2.2, steps_record_step]

theorem runStep_vu (st : Step) (s : State) (hst : st ≠ .DeployStartFiles) :
    (runStep st s).st.vu = s.vu := by
  cases st with
  | BackupExecs => exact (BackupExecs_ok s).1.1
  | BackupDataFiles => exact (BackupDataFiles_ok s).1.1
  | MoveCurrentDir => exact (MoveCurrentDir_ok s).1.1
  | MakeNewDir => exact (MakeNewDir_ok s).1.1
  | GetLatestZip => exact (GetLatestZip_ok s).1.1
  | ServerSetup => exact (ServerSetup_ok s).1.1
  | DeployStartFiles => exact absurd rfl hst

/-- A successful `DeployStartFiles` leaves the in-memory installed version equal to the
latest version and the record file holding exactly that version. -/
theorem DeployStartFiles_success {s t : State} (h : DeployStartFiles s = .ok () t) :
    t.vu = { s.vu with InstalledVersion := s.vu.LatestVersion } ∧
    ∃ key mode, resolve t t.vu.VersionLogFile = some key ∧
      fsStat t.fs key = some (.file mode (.json [("version", s.vu.LatestVersion)])) := by
  rcases DeployStartFiles_cases s with ⟨u, _, hu⟩ | ⟨u, hf, hu⟩
  · rw [hu] at h; cases h
  · rw [hu] at h
    obtain ⟨hw, key, mode, h1, h2⟩ := writeVersionLog_ok h
    have hvu : u.vu = s.vu := hf.1
    refine ⟨?_, key, mode, ?_, ?_⟩
    · rw [hw.1]; simp only; rw [hvu]
    · rw [resolve_congr hw.2.1, hw.1]; exact h1
    · rw [← hvu]; exact h2

/-! ## The orchestrator -/

theorem main_eq_runSteps (s : State) (h : s.vu.LatestVersion ≠ s.vu.InstalledVersion) :
    VersionUpdate.main s = runSteps stepOrder s := by
  have hc : (s.vu.LatestVersion != s.vu.InstalledVersion) = true := by simp [h]
  simp only [VersionUpdate.main, hc, if_true, runSteps, stepOrder, runStep]

theorem main_skip (s : State) (h : s.vu.LatestVersion = s.vu.InstalledVersion) :
    VersionUpdate.main s = .ok () s := by
  have hc : (s.vu.LatestVersion != s.vu.InstalledVersion) = false := by simp [h]
  simp [VersionUpdate.main, hc]

theorem runSteps_append (a b : List Step) : ∀ s : State,
    runSteps (a ++ b) s = (runSteps a s).andThen fun _ s => runSteps b s := by
  induction a with
  | nil => intro s; rfl
  | cons st t ih =>
    intro s
    simp only [List.cons_append, runSteps]
    cases runStep st s with
    | halt h u => rfl
    | ok x u => simp only [Res.andThen]; exact ih u

theorem runSteps_ok_steps (l : List Step) : ∀ (s t : State),
    runSteps l s = .ok () t → t.steps = s.steps ++ l := by
  induction l with
  | nil => intro s t h; cases h; simp
  | cons st r ih =>
    intro s t h
    simp only [runSteps] at h
    have h1 := runStep_steps st s
    cases hr : runStep st s with
    | halt x u => rw [hr] at h; cases h
    | ok x u =>
      rw [hr] at h h1
      simp only [Res.andThen] at h
      simp only [Res.st] at h1
      rw [ih u t h, h1]
      simp

theorem runSteps_ok_vu (l : List Step) (hl : Step.DeployStartFiles ∉ l) : ∀ (s t : State),
    runSteps l s = .ok () t → t.vu = s.vu := by
  induction l with
  | nil => intro s t h; cases h; rfl
  | cons st r ih =>
    intro s t h
    simp only [runSteps] at h
    have hst : st ≠ .DeployStartFiles := fun e => hl (by simp [e])
    have hr1 : Step.DeployStartFiles ∉ r := fun e => hl (by simp [e])
    have h1 := runStep_vu st s hst
    cases hr : runStep st s with
    | halt x u => rw [hr] at h; cases h
    | ok x u =>
      rw [hr] at h h1
      simp only [Res.andThen] at h
      simp only [Res.st] at h1
      rw [ih hr1 u t h, h1]

/-- Whatever happens, the steps entered by a run of `st :: rest` start with `st`. -/
theorem runSteps_first (st : Step) (rest : List Step) (s : State) :
    ∃ later, (runSteps (st :: rest) s).st.steps = s.steps ++ st :: later := by
  have aux : ∀ (l : List Step) (u : State), ∃ later, (runSteps l u).st.steps = u.steps ++ later := by
    intro l
    induction l with
    | nil => intro u; exact ⟨[], by simp [runSteps, Res.st]⟩
    | cons a r ih =>
      intro u
      simp only [runSteps]
      have h1 := runStep_steps a u
      cases hr : runStep a u with
      | halt x w => rw [hr] at h1; exact ⟨[a], h1⟩
      | ok x w =>
        rw [hr] at h1
        simp only [Res.st] at h1
        obtain ⟨later, hl⟩ := ih w
        refine ⟨a :: later, ?_⟩
        simp only [Res.andThen]
        rw [hl, h1]
        simp
  simp only [runSteps]
  have h1 := runStep_steps st s
  cases hr : runStep st s with
  | halt x w => rw [hr] at h1; exact ⟨[], h1⟩
  | ok x w =>
    rw [hr] at h1
    simp only [Res.st] at h1
    obtain ⟨later, hl⟩ := aux rest w
    refine ⟨later, ?_⟩
    simp only [Res.andThen]
    rw [hl, h1]
    simp

theorem GetLatestVersion_state {s t : State} {v : String}
    (h : GetLatestVersion s = .ok v t) : t = s := by
  unfold GetLatestVersion at h
  split at h
  · cases h
  · simp only at h
    split at h
    · cases h
    · cases h; rfl

/-- The branch `upgrade` of `main`, once the profile file is created and both versions
are resolved. -/
theorem main_upgrade (prog : String) (s s0 s1 s2 : State) (f latest installed : String)
    (hprof : osCreate (boot s) "vu.prof" = .ok (f, s0))
    (hl : GetLatestVersion s0 = .ok latest s1)
    (hi : GetInstalledVersion (withLatest s1 latest) = .ok installed s2) :
    main [prog, "upgrade"] s =
      (VersionUpdate.main (withInstalled s2 installed)).andThen fun _ s => fullstop 88 s := by
  have hp : flagParse ["upgrade"] = .ok ["upgrade"] := rfl
  have hp0 : flagParse [] = .ok [] := rfl
  have hc1 : ("upgrade" = "check") = False := by decide
  have hc2 : ("upgrade" = "pcheck") = False := by decide
  unfold boot at hprof
  unfold withLatest at hi
  simp only [main, hp, hprof, List.length_singleton, lt_self_iff_false, if_false,
    List.getElem?_cons_succ, List.getElem?_cons_zero, hc1, hc2, if_true, caseUpgrade,
    List.drop_succ_cons, List.drop_zero, hp0, hl, Res.andThen, hi, withInstalled]

/-- The branches `check` and `pcheck` of `main`, once the profile file is created and both
versions are resolved. -/
theorem main_check (prog : String) (s s0 s1 s2 : State) (f installed latest : String)
    (hprof : osCreate (boot s) "vu.prof" = .ok (f, s0))
    (hi : GetInstalledVersion s0 = .ok installed s1)
    (hl : GetLatestVersion s1 = .ok latest s2) :
    main [prog, "check"] s = .halt (.exit (if installed = latest then 0 else 42)) s2 ∧
    main [prog, "pcheck"] s = .halt (.exit (if installed = latest then 0 else 42)) s2 := by
  have hp1 : flagParse ["check"] = .ok ["check"] := rfl
  have hp0 : flagParse [] = .ok [] := rfl
  have hp2 : flagParse ["pcheck"] = .ok ["pcheck"] := rfl
  have hc1 : ("pcheck" = "check") = False := by decide
  unfold boot at hprof
  constructor
  · simp only [main, hp1, hprof, List.length_singleton, lt_self_iff_false, if_false,
      List.getElem?_cons_succ, List.getElem?_cons_zero, if_true, caseCheck,
      List.drop_succ_cons, List.drop_zero, hp0, hl, Res.andThen, hi, fullstop]
    by_cases e : installed = latest <;> simp [e]
  · simp only [main, hp2, hprof, List.length_singleton, lt_self_iff_false, if_false,
      List.getElem?_cons_succ, List.getElem?_cons_zero, hc1, if_true, casePcheck,
      List.drop_succ_cons, List.drop_zero, hp0, hl, Res.andThen, hi, fullstop]
    by_cases e : installed = latest <;> simp [e]

/-- Version resolution enters no upgrade step. -/
theorem resolution_steps {s s0 s1 s2 : State} {f latest installed : String}
    (hprof : osCreate (boot s) "vu.prof" = .ok (f, s0))
    (hl : GetLatestVersion s0 = .ok latest s1)
    (hi : GetInstalledVersion (withLatest s1 latest) = .ok installed s2) :
    (withInstalled s2 installed).steps = s.steps ∧
    (withInstalled s2 installed).vu.LatestVersion = latest ∧
    (withInstalled s2 installed).vu.InstalledVersion = installed := by
  have h0 := osCreate_frame hprof
  have h1 := GetLatestVersion_state hl
  have h2 := GetInstalledVersion_frame (withLatest s1 latest)
  rw [hi] at h2
  simp only [Res.st] at h2
  subst h1
  refine ⟨?_, ?_, rfl⟩
  · show s2.steps = s.steps
    rw [h2.2.2.2]
    show s1.steps = s.steps
    rw [h0.2.2.2]
    rfl
  · show s2.vu.LatestVersion = latest
    rw [h2.1]
    rfl

/-! ## Claims on the orchestrator -/

/-- C1 (as amended): for every version `v`, an `upgrade` invocation in which version
resolution yields `installedVersion = latestVersion = v` invokes none of the seven upgrade
steps and terminates the process with exit status 88, in the state reached by version
resolution. -/
theorem upgrade_same_version_skips_steps_exits_88 (prog : String) (s s0 s1 s2 : State)
    (f v : String)
    (hprof : osCreate (boot s) "vu.prof" = .ok (f, s0))
    (hl : GetLatestVersion s0 = .ok v s1)
    (hi : GetInstalledVersion (withLatest s1 v) = .ok v s2) :
    main [prog, "upgrade"] s = .halt (.exit 88) (withInstalled s2 v) ∧
    (withInstalled s2 v).steps = s.steps := by
  obtain ⟨h1, h2, h3⟩ := resolution_steps hprof hl hi
  refine ⟨?_, h1⟩
  rw [main_upgrade prog s s0 s1 s2 f v v hprof hl hi, main_skip _ (h2.trans h3.symm)]
  rfl

/-- Witness for C1: an installation whose record already holds the latest release. -/
theorem upgrade_same_version_skips_steps_exits_88_witness :
    (main ["vu", "upgrade"] currentState).halted = some (.exit 88) ∧
    (main ["vu", "upgrade"] currentState).st.steps = [] := by
  have h := upgrade_same_version_skips_steps_exits_88 "vu" currentState _ _ _ _ "2023.8.3.1"
    rfl rfl rfl
  rw [h.1]
  exact ⟨rfl, h.2⟩

/-- C1 as stated fails: with the record and the latest release both at `2023.8.3.1`, the
`upgrade` invocation ends with exit status 88, not 0. -/
theorem upgrade_same_version_exit_0_counterexample :
    ¬ ∀ (prog : String) (s s0 s1 s2 : State) (f v : String),
        osCreate (boot s) "vu.prof" = .ok (f, s0) →
        GetLatestVersion s0 = .ok v s1 →
        GetInstalledVersion (withLatest s1 v) = .ok v s2 →
        (main [prog, "upgrade"] s).halted = some (.exit 0) := by
  intro h
  have e := h "vu" currentState _ _ _ _ "2023.8.3.1" rfl rfl rfl
  exact absurd e (by decide)

/-- C3: in an `upgrade` run with `installedVersion != latestVersion` in which all seven
steps succeed, the run ends with exit status 88, the in-memory installed version equals
the latest version, and the version record holds exactly the latest version (the file
holds the document with the single member `version`, and `readVersionLog` returns it). -/
theorem upgrade_success_persists_latest (prog : String) (s s0 s1 s2 sf : State)
    (f latest installed : String)
    (hprof : osCreate (boot s) "vu.prof" = .ok (f, s0))
    (hl : GetLatestVersion s0 = .ok latest s1)
    (hi : GetInstalledVersion (withLatest s1 latest) = .ok installed s2)
    (hne : installed ≠ latest)
    (hrun : runSteps stepOrder (withInstalled s2 installed) = .ok () sf) :
    main [prog, "upgrade"] s = .halt (.exit 88) sf ∧
    sf.steps = s.steps ++ stepOrder ∧
    sf.vu.LatestVersion = latest ∧
    sf.vu.InstalledVersion = sf.vu.LatestVersion ∧
    (readVersionLog sf).1 = (latest, false) ∧
    ∃ key mode, resolve sf sf.vu.VersionLogFile = some key ∧
      fsStat sf.fs key = some (.file mode (.json [("version", latest)])) := by
  obtain ⟨h1, h2, h3⟩ := resolution_steps hprof hl hi
  have hne1 : (withInstalled s2 installed).vu.LatestVersion ≠
      (withInstalled s2 installed).vu.InstalledVersion := by
    rw [h2, h3]; exact fun e => hne e.symm
  have hsplit : stepOrder =
      [.BackupExecs, .BackupDataFiles, .MoveCurrentDir, .MakeNewDir, .GetLatestZip,
        .ServerSetup] ++ [.DeployStartFiles] := rfl
  have hrun1 := hrun
  rw [hsplit, runSteps_append] at hrun1
  cases h6 : runSteps [.BackupExecs, .BackupDataFiles, .MoveCurrentDir, .MakeNewDir,
      .GetLatestZip, .ServerSetup] (withInstalled s2 installed) with
  | halt x u => rw [h6] at hrun1; cases hrun1
  | ok x s6 =>
    rw [h6] at hrun1
    simp only [Res.andThen, runSteps, runStep] at hrun1
    have hvu : s6.vu = (withInstalled s2 installed).vu :=
      runSteps_ok_vu _ (by decide) _ _ h6
    cases hd : DeployStartFiles s6 with
    | halt y u => rw [hd] at hrun1; cases hrun1
    | ok y t =>
      rw [hd] at hrun1
      cases hrun1
      obtain ⟨hd1, key, mode, hd2, hd3⟩ := DeployStartFiles_success hd
      have hlat : s6.vu.LatestVersion = latest := by rw [hvu]; exact h2
      have hrec : fsStat sf.fs key = some (.file mode (.json [("version", latest)])) := by
        rw [← hlat]; exact hd3
      refine ⟨?_, ?_, ?_, ?_, ?_, key, mode, hd2, hrec⟩
      · rw [main_upgrade prog s s0 s1 s2 f latest installed hprof hl hi,
          main_eq_runSteps _ hne1, hrun]
        rfl
      · rw [runSteps_ok_steps _ _ _ hrun, h1]
      · rw [hd1]; exact hlat
      · rw [hd1]
      · rw [readVersionLog_eq, hd2]
        simp [recordVersion, hrec, List.lookup]

/-- Witness for C3: an upgrade from `2023.6.25.33` to `2023.8.3.1` with a reachable
archive. -/
theorem upgrade_success_persists_latest_witness :
    (main ["vu", "upgrade"] (siteState "tModLoader 1.4.4.9+2023.6.25.33|stable\n" true)).halted
      = some (.exit 88) ∧
    (readVersionLog
      (main ["vu", "upgrade"] (siteState "tModLoader 1.4.4.9+2023.6.25.33|stable\n" true)).st).1
      = ("2023.8.3.1", false) := by
  have h := upgrade_success_persists_latest "vu"
    (siteState "tModLoader 1.4.4.9+2023.6.25.33|stable\n" true) _ _ _ _ _
    "2023.8.3.1" "2023.6.25.33" rfl rfl rfl (by decide) rfl
  rw [h.1]
  exact ⟨rfl, h.2.2.2.2.1⟩

/-- C4 (as amended): an `upgrade` invocation makes no emptiness check on the resolved
versions.  Whatever the two resolved strings are, empty or not: the state in which the
upgrade logic starts holds them as resolved; when `installedVersion = latestVersion` (for
instance when both are empty) no step is entered and the run ends with status 88 in that
state; when they differ (for instance when exactly one of them is empty) the run is the
first step `BackupExecs` started in that very state, followed by the other six steps, and
`BackupExecs` writes its archive to `BackupDir/tMod-execs-<installedVersion>.tar.gz` with
the installed version as resolved. -/
theorem upgrade_steps_run_iff_versions_differ (prog : String) (s s0 s1 s2 : State)
    (f latest installed : String)
    (hprof : osCreate (boot s) "vu.prof" = .ok (f, s0))
    (hl : GetLatestVersion s0 = .ok latest s1)
    (hi : GetInstalledVersion (withLatest s1 latest) = .ok installed s2) :
    (withInstalled s2 installed).vu.InstalledVersion = installed ∧
    (withInstalled s2 installed).vu.LatestVersion = latest ∧
    (installed = latest →
      main [prog, "upgrade"] s = .halt (.exit 88) (withInstalled s2 installed)) ∧
    (installed ≠ latest →
      main [prog, "upgrade"] s =
        ((BackupExecs (withInstalled s2 installed)).andThen fun _ t =>
          runSteps [.BackupDataFiles, .MoveCurrentDir, .MakeNewDir, .GetLatestZip,
            .ServerSetup, .DeployStartFiles] t).andThen fun _ u => fullstop 88 u) ∧
    BackupExecs (withInstalled s2 installed) =
      (match tarGz (s2.vu.BackupDir ++ "/tMod-execs-" ++ installed ++ ".tar.gz")
          (s2.vu.RootDir ++ "/tModLoader") s2.vu.BackupDir
          ((withInstalled s2 installed).record (.step .BackupExecs)) with
        | (some _, t) => fullstop 1 t
        | (none, t) => .ok () t) ∧
    ∃ h sf, main [prog, "upgrade"] s = .halt h sf ∧
      (installed = latest → sf.steps = s.steps) ∧
      (installed ≠ latest → ∃ later, sf.steps = s.steps ++ .BackupExecs :: later) := by
  obtain ⟨h1, h2, h3⟩ := resolution_steps hprof hl hi
  have hmain := main_upgrade prog s s0 s1 s2 f latest installed hprof hl hi
  have hskip : installed = latest →
      main [prog, "upgrade"] s = .halt (.exit 88) (withInstalled s2 installed) := by
    intro e
    rw [hmain, main_skip _ (by rw [h2, h3]; exact e.symm)]
    rfl
  have hrun : installed ≠ latest →
      main [prog, "upgrade"] s =
        (runSteps stepOrder (withInstalled s2 installed)).andThen fun _ u => fullstop 88 u := by
    intro e
    rw [hmain, main_eq_runSteps _ (by rw [h2, h3]; exact fun x => e x.symm)]
  refine ⟨h3, h2, hskip, fun e => hrun e, rfl, ?_⟩
  by_cases e : installed = latest
  · exact ⟨.exit 88, _, hskip e, fun _ => h1, fun hne => absurd e hne⟩
  · rw [hrun e]
    obtain ⟨later, hlater⟩ := runSteps_first .BackupExecs
      [.BackupDataFiles, .MoveCurrentDir, .MakeNewDir, .GetLatestZip, .ServerSetup,
        .DeployStartFiles] (withInstalled s2 installed)
    have hlater1 : (runSteps stepOrder (withInstalled s2 installed)).st.steps =
        s.steps ++ .BackupExecs :: later := by
      rw [← h1]; exact hlater
    cases hr : runSteps stepOrder (withInstalled s2 installed) with
    | halt x u =>
      rw [hr] at hlater1
      exact ⟨x, u, rfl, fun he => absurd he e, fun _ => ⟨later, hlater1⟩⟩
    | ok x u =>
      rw [hr] at hlater1
      exact ⟨.exit 88, u, rfl, fun he => absurd he e, fun _ => ⟨later, hlater1⟩⟩

/-- Witness for C4: the first log line `tModLoader 1.4.4.9+|stable` resolves the installed
version to the empty string; the run goes through all seven steps, and the archive of
`BackupExecs` is `/root/backup/tMod-execs-.tar.gz`. -/
theorem upgrade_steps_run_iff_versions_differ_witness :
    (main ["vu", "upgrade"] (siteState "tModLoader 1.4.4.9+|stable\n" true)).halted
      = some (.exit 88) ∧
    (main ["vu", "upgrade"] (siteState "tModLoader 1.4.4.9+|stable\n" true)).st.steps
      = stepOrder ∧
    (fsStat (main ["vu", "upgrade"] (siteState "tModLoader 1.4.4.9+|stable\n" true)).st.fs
      "/root/backup/tMod-execs-.tar.gz").isSome = true := by
  have h := (upgrade_steps_run_iff_versions_differ "vu"
    (siteState "tModLoader 1.4.4.9+|stable\n" true) _ _ _ _ "2023.8.3.1" "" rfl rfl rfl).2.2.2.1
    (by decide)
  rw [h]
  exact ⟨rfl, rfl, rfl⟩

/-- C4 as stated fails: with the first log line `tModLoader 1.4.4.9+|stable` the installed
version resolves to the empty string, and the run nevertheless enters all seven steps
instead of failing before the first one; they run with the empty version, leaving the
archive `/root/backup/tMod-execs-.tar.gz` and the moved directory `/root/tModLoader-v`. -/
theorem upgrade_empty_version_counterexample :
    (¬ ∀ (prog : String) (s s0 s1 s2 : State) (f latest installed : String),
        osCreate (boot s) "vu.prof" = .ok (f, s0) →
        GetLatestVersion s0 = .ok latest s1 →
        GetInstalledVersion (withLatest s1 latest) = .ok installed s2 →
        (installed = "" ∨ latest = "") →
        (main [prog, "upgrade"] s).st.steps = s.steps) ∧
    (main ["vu", "upgrade"] (siteState "tModLoader 1.4.4.9+|stable\n" true)).st.steps
      = stepOrder ∧
    (fsStat (main ["vu", "upgrade"] (siteState "tModLoader 1.4.4.9+|stable\n" true)).st.fs
      "/root/backup/tMod-execs-.tar.gz").isSome = true ∧
    (fsStat (main ["vu", "upgrade"] (siteState "tModLoader 1.4.4.9+|stable\n" true)).st.fs
      "/root/tModLoader-v").isSome = true := by
  have e1 : (main ["vu", "upgrade"] (siteState "tModLoader 1.4.4.9+|stable\n" true)).st.steps =
      stepOrder := by decide
  refine ⟨?_, e1, rfl, rfl⟩
  intro h
  have e := h "vu" (siteState "tModLoader 1.4.4.9+|stable\n" true) _ _ _ _ "2023.8.3.1" ""
    rfl rfl rfl (Or.inl rfl)
  rw [e1] at e
  exact absurd e (by decide)

/-- C5: for both read-only subcommands `check` and `pcheck` and every pair of resolved
versions, the process exit status is 42 if the versions differ and 0 if they are equal,
no upgrade step is entered, and `check` and `pcheck` end alike (same status, same
state). -/
theorem check_and_pcheck_exit_status (prog : String) (s s0 s1 s2 : State)
    (f installed latest : String)
    (hprof : osCreate (boot s) "vu.prof" = .ok (f, s0))
    (hi : GetInstalledVersion s0 = .ok installed s1)
    (hl : GetLatestVersion s1 = .ok latest s2) :
    main [prog, "check"] s = .halt (.exit (if installed = latest then 0 else 42)) s2 ∧
    main [prog, "pcheck"] s = .halt (.exit (if installed = latest then 0 else 42)) s2 ∧
    s2.steps = s.steps := by
  obtain ⟨h1, h2⟩ := main_check prog s s0 s1 s2 f installed latest hprof hi hl
  refine ⟨h1, h2, ?_⟩
  have f0 := osCreate_frame hprof
  have f1 := GetInstalledVersion_frame s0
  rw [hi] at f1
  simp only [Res.st] at f1
  rw [GetLatestVersion_state hl, f1.2.2.2, f0.2.2.2]
  rfl

/-- Witness for C5: an installation at `2023.6.25.33` while the latest release is
`2023.8.3.1`. -/
theorem check_and_pcheck_exit_status_witness :
    (main ["vu", "check"] (siteState "tModLoader 1.4.4.9+2023.6.25.33|stable\n" true)).halted
      = some (.exit 42) ∧
    (main ["vu", "pcheck"] (siteState "tModLoader 1.4.4.9+2023.6.25.33|stable\n" true)).halted
      = some (.exit 42) := by
  have h := check_and_pcheck_exit_status "vu"
    (siteState "tModLoader 1.4.4.9+2023.6.25.33|stable\n" true) _ _ _ _
    "2023.6.25.33" "2023.8.3.1" rfl rfl rfl
  rw [h.1, h.2.1]
  exact ⟨rfl, rfl⟩

/-- C9 (as amended): for every initial state (record absent, unparsable or present; any
log file of valid UTF-8 text, which is what a file of the model holds) from which a first
`GetInstalledVersion` call returns a value `v`: a second call on the resulting state also
returns `v`, the log file and the record file being different files; and when `v` is not
empty the second call does so by opening the version record only, the log file is not
opened. -/
theorem GetInstalledVersion_twice (s s1 : State) (v : String)
    (h : GetInstalledVersion s = .ok v s1) :
    (resolve s s.vu.LogFile ≠ resolve s s.vu.VersionLogFile →
      (GetInstalledVersion s1).value = some v) ∧
    (v ≠ "" →
      GetInstalledVersion s1 = .ok v (s1.record (.osOpen s1.vu.VersionLogFile))) := by
  have hsecond : v ≠ "" →
      GetInstalledVersion s1 = .ok v (s1.record (.osOpen s1.vu.VersionLogFile)) := by
    intro hv
    rcases GetInstalledVersion_ok h with ⟨h1, _, h3⟩ | ⟨_, hw⟩
    · subst h3
      subst h1
      unfold GetInstalledVersion
      rw [readVersionLog_eq]
      have e : (resolve (s.record (.osOpen s.vu.VersionLogFile))
          (s.record (.osOpen s.vu.VersionLogFile)).vu.VersionLogFile).bind
            (fsStat (s.record (.osOpen s.vu.VersionLogFile)).fs) =
          (resolve s s.vu.VersionLogFile).bind (fsStat s.fs) := rfl
      rw [e]
      simp only [hv, if_false]
    · unfold GetInstalledVersion
      rw [readVersionLog_after_write hw]
      simp only [hv, if_false]
  refine ⟨?_, hsecond⟩
  intro hdiff
  by_cases hv : v = ""
  · rcases GetInstalledVersion_ok h with ⟨_, h2, _⟩ | ⟨hf, hw⟩
    · exact absurd hv h2
    · obtain ⟨hfr, key, mode, hkey, hrec⟩ := writeVersionLog_ok hw
      have hvu : s1.vu = s.vu := hfr.1
      have hcwd : s1.cwd = s.cwd := hfr.2.1
      have hkey0 : resolve s s.vu.VersionLogFile = some key := hkey
      cases hlog : resolve s s.vu.LogFile with
      | none => rw [hlog] at hf; cases hf
      | some lkey =>
        have hne : lkey ≠ key := by
          intro e
          apply hdiff
          rw [hlog, hkey0, e]
        have hstat : fsStat s1.fs lkey = fsStat s.fs lkey :=
          writeVersionLog_other hw hkey lkey hne
        have hfound : (resolve (s1.record (.osOpen s1.vu.VersionLogFile))
            (s1.record (.osOpen s1.vu.VersionLogFile)).vu.LogFile).bind
              (fsStat (s1.record (.osOpen s1.vu.VersionLogFile)).fs) =
            (resolve s s.vu.LogFile).bind (fsStat s.fs) := by
          show (resolve s1 s1.vu.LogFile).bind (fsStat s1.fs) = _
          rw [resolve_congr hcwd, hvu, hlog]
          simp only [Option.bind, hstat]
        have hkey1 : resolve
            ((s1.record (.osOpen s1.vu.VersionLogFile)).record
              (.osOpen (s1.record (.osOpen s1.vu.VersionLogFile)).vu.LogFile))
            ((s1.record (.osOpen s1.vu.VersionLogFile)).record
              (.osOpen (s1.record (.osOpen s1.vu.VersionLogFile)).vu.LogFile)).vu.VersionLogFile
              = some key := by
          show resolve s1 s1.vu.VersionLogFile = some key
          rw [resolve_congr hcwd, hvu]
          exact hkey0
        obtain ⟨t, ht⟩ := writeVersionLog_again v _ key mode _ hkey1 hrec
        unfold GetInstalledVersion
        rw [readVersionLog_after_write hw]
        simp only [hv, if_true]
        rw [readFirstLogLine_eq, hfound, hf]
        simp only [Res.andThen]
        rw [← hv, ht]
        rfl
  · rw [hsecond hv]
    rfl

/-- Witness for C9: no version record yet, the version comes from the log; once with the
version `2023.6.25.33`, once with the empty version of the line `tModLoader 1.4.4.9+|stable`. -/
theorem GetInstalledVersion_twice_witness :
    GetInstalledVersion
        (GetInstalledVersion (logState "tModLoader 1.4.4.9+2023.6.25.33|stable\n")).st
      = .ok "2023.6.25.33"
          ((GetInstalledVersion (logState "tModLoader 1.4.4.9+2023.6.25.33|stable\n")).st.record
            (.osOpen "/root/tModLoader/version_update.json")) ∧
    (GetInstalledVersion
        (GetInstalledVersion (logState "tModLoader 1.4.4.9+|stable\n")).st).value
      = some "" :=
  ⟨(GetInstalledVersion_twice (logState "tModLoader 1.4.4.9+2023.6.25.33|stable\n") _
      "2023.6.25.33" rfl).2 (by decide),
   (GetInstalledVersion_twice (logState "tModLoader 1.4.4.9+|stable\n") _ "" rfl).1
      (by decide)⟩

/-- C9 as stated fails: when the first log line is `tModLoader 1.4.4.9+|stable` the first
call returns the empty string and persists it; the second call finds the empty version in
the record and opens the log file again. -/
theorem GetInstalledVersion_twice_counterexample :
    ¬ ∀ (s s1 : State) (v : String), GetInstalledVersion s = .ok v s1 →
        GetInstalledVersion s1 = .ok v (s1.record (.osOpen s1.vu.VersionLogFile)) := by
  intro h
  have e := congrArg (fun r => r.st.trace)
    (h (logState "tModLoader 1.4.4.9+|stable\n") _ "" rfl)
  exact absurd e (by decide)

/-! ## Extraction of the distribution archive -/

/-- C10 (the code at the failing input): extracting an archive whose only entry is the
file `a/b.txt` into the existing directory `/srv/new` fails with `ENOENT` and creates
neither `/srv/new/a` nor the file; the same archive with the directory entry `a/` ahead
of the file is extracted. -/
theorem unzip_missing_parent_fails :
    (unzip "/srv/dist.zip" "/srv/new" zipState).1 = some "ENOENT" ∧
    fsStat (unzip "/srv/dist.zip" "/srv/new" zipState).2.fs "/srv/new/a" = none ∧
    fsStat (unzip "/srv/dist.zip" "/srv/new" zipState).2.fs "/srv/new/a/b.txt" = none ∧
    (unzip "/srv/dist.zip" "/srv/new" zipStateWithDir).1 = none ∧
    fsStat (unzip "/srv/dist.zip" "/srv/new" zipStateWithDir).2.fs "/srv/new/a/b.txt"
      = some (.file 420 (.raw "hello")) :=
  ⟨rfl, rfl, rfl, rfl, rfl⟩

end VU
